import Mathlib

/-!
Bank ledger: shallow embedding of `bank.h` / `bank.cpp`, and of the display
loop of `get_transactions` in `bank_server.cpp`.

The embedding is sequential: every method of the source runs under the mutex
of the objects it touches, so one call is one atomic state transition, and the
mutexes and the condition variable themselves are not part of the state.

* A `user` object is owned by the ledger through a `std::unique_ptr` stored in
  `ledger::users`.  The owning store is a list of `(key, user)` entries in
  creation order, and a `user *` / `user &` is the position of the pointee in
  that list, so pointer equality is position equality.
* `int` is embedded as `Int`.  The arithmetic of `add_funds_unchecked` and
  `transfer` is given twice: on mathematical integers (`user.transfer`,
  `reachable`), which describes the calls in which no `int` operation
  overflows, and at 32 bits (`user.transfer_i32`, `reachable_i32`).  Overflow of
  a signed `int` is undefined behaviour in C++; the 32-bit definitions give it
  the two's-complement result of the usual implementations.  On every ledger
  of `n` accounts with `100 * n ≤ INT_MAX` the two agree
  (`transfer_i32_eq_transfer`, `reachable_of_reachable_i32`).  The claims whose
  truth depends on an overflow are settled at 32 bits.
* An exception thrown by `transfer` is the `Except.error` component of the
  result; the ledger after the call is returned next to it.
-/

namespace bank

/-! ## Data model (`bank.h`) -/

/-- A `transaction`: the counterparty pointer (`none` for `nullptr`), the
balance delta and the comment. -/
structure transaction where
  counterparty : Option Nat
  balance_delta_xts : Int
  comment : String
deriving DecidableEq

/-- The constant `user::INITIAL_BALANCE`. -/
def INITIAL_BALANCE : Int := 100

/-- The data members of `user` (without the mutex and the condition
variable). -/
structure user where
  m_name : String
  m_balance_xts : Int
  m_transactions : List transaction
deriving DecidableEq

/-- The constructor `user::user(std::string name)` together with the default
member initialisers of `m_balance_xts` and `m_transactions`. -/
def user.new (name : String) : user :=
  { m_name := name
    m_balance_xts := INITIAL_BALANCE
    m_transactions := [⟨none, INITIAL_BALANCE, "Initial deposit for " ++ name⟩] }

/-- The method `user::name`. -/
def user.name (self : user) : String := self.m_name

/-- The method `user::balance_xts`. -/
def user.balance_xts (self : user) : Int := self.m_balance_xts

/-- The `ledger`: the entries of the map `users`, in creation order. -/
structure ledger where
  users : List (String × user)
deriving DecidableEq

/-- The exceptions derived from `transfer_error`, each with its `what()`
text. -/
inductive transfer_error where
  | not_enough_funds (what : String)
  | self_transfer (what : String)
  | nonpositive_amount (what : String)
deriving DecidableEq

/-- The text returned by `what()`. -/
def transfer_error.what : transfer_error → String
  | .not_enough_funds w => w
  | .self_transfer w => w
  | .nonpositive_amount w => w

/-- The constructor `not_enough_funds_error(int available_xts, int requested_xts)`;
`std::to_string` of an `int` is its decimal rendering. -/
def not_enough_funds_error (available_xts requested_xts : Int) : transfer_error :=
  .not_enough_funds ("Not enough funds: " ++ toString available_xts ++
    " XTS available, " ++ toString requested_xts ++ " XTS requested")

/-- The constructor `self_transfer_error()`. -/
def self_transfer_error : transfer_error :=
  .self_transfer "Transfer to yourself"

/-- The constructor `nonpositive_amount_transfer_error()`. -/
def nonpositive_amount_transfer_error : transfer_error :=
  .nonpositive_amount "Transfer of non-positive amount"

/-- The state of a `user_transactions_iterator`: the user it is bound to and
its position in that user's transaction log. -/
structure user_transactions_iterator where
  m_user : Nat
  pos : Nat
deriving DecidableEq

/-! ## Operations (`bank.cpp`) -/

/-- Calls a mutating method `f` of the user stored at position `p`; the key of
the entry and all other entries stay as they are. -/
def with_user : List (String × user) → Nat → (user → user) → List (String × user)
  | [], _, _ => []
  | e :: es, 0, f => (e.1, f e.2) :: es
  | e :: es, p + 1, f => e :: with_user es p f

/-- Dereferences a user pointer in a ledger. -/
def ledger.deref (l : ledger) (p : Nat) : Option user :=
  (l.users[p]?).map Prod.snd

/-- The method `user::add_funds_unchecked`: adds the delta to the balance and
appends the transaction `(&counterparty, balance_delta_xts, comment)`.  The
call `m_cond.notify_all()` wakes the waiting iterators and changes no data
member. -/
def user.add_funds_unchecked (self : user) (counterparty : Nat)
    (balance_delta_xts : Int) (comment : String) : user :=
  { self with
    m_balance_xts := self.m_balance_xts + balance_delta_xts
    m_transactions :=
      self.m_transactions ++ [⟨some counterparty, balance_delta_xts, comment⟩] }

/-- The method `user::transfer`, called on the user at `self` with the user at
`counterparty`: the self-transfer check, the amount check, the funds check, and
then the two calls of `add_funds_unchecked`. -/
def user.transfer (l : ledger) (self counterparty : Fin l.users.length)
    (amount_xts : Int) (comment : String) : Except transfer_error Unit × ledger :=
  if self = counterparty then
    (.error self_transfer_error, l)
  else if amount_xts ≤ 0 then
    (.error nonpositive_amount_transfer_error, l)
  else if (l.users[self]).2.m_balance_xts < amount_xts then
    (.error (not_enough_funds_error (l.users[self]).2.m_balance_xts amount_xts), l)
  else
    let l1 : ledger :=
      ⟨with_user l.users self
        (fun u => u.add_funds_unchecked counterparty (-amount_xts) comment)⟩
    let l2 : ledger :=
      ⟨with_user l1.users counterparty
        (fun u => u.add_funds_unchecked self amount_xts comment)⟩
    (.ok (), l2)

/-- The lookup `users.find(name)`: the position of the entry with key `name`. -/
def find_user : List (String × user) → String → Option Nat
  | [], _ => none
  | e :: es, name => if e.1 = name then some 0 else (find_user es name).map (· + 1)

/-- The method `ledger::get_or_create_user`: the reference it returns and the
ledger after the call. -/
def ledger.get_or_create_user (l : ledger) (name : String) : Nat × ledger :=
  match find_user l.users name with
  | none => (l.users.length, ⟨l.users ++ [(name, user.new name)]⟩)
  | some p => (p, l)

/-- One call on the ledger: `get_or_create_user` with any name, or `transfer`
between any two users of the ledger with any amount and comment, whether it
returns normally or throws. -/
inductive step : ledger → ledger → Prop where
  | get_or_create_user (l : ledger) (name : String) :
      step l (l.get_or_create_user name).2
  | transfer (l : ledger) (A B : Fin l.users.length) (amount : Int) (comment : String) :
      step l (user.transfer l A B amount comment).2

/-- The ledgers reachable from the empty ledger by calls of
`get_or_create_user` and `transfer`. -/
inductive reachable : ledger → Prop where
  | empty : reachable ⟨[]⟩
  | step {l l' : ledger} : reachable l → step l l' → reachable l'

/-- The sum of the balance deltas of a transaction log. -/
def sum_deltas (log : List transaction) : Int :=
  (log.map transaction.balance_delta_xts).sum

/-- The seed entry of the log of the user created under `name`. -/
def seed_deposit (name : String) : transaction :=
  ⟨none, INITIAL_BALANCE, "Initial deposit for " ++ name⟩

/-- What holds of every entry `(key, u)` of a reachable ledger: the user is
named after its key, its log starts with its seed deposit, its balance is the
sum of the deltas of its log, and its balance is not negative. -/
def user_ok (e : String × user) : Prop :=
  e.2.m_name = e.1 ∧
  (∃ rest, e.2.m_transactions = seed_deposit e.1 :: rest) ∧
  e.2.m_balance_xts = sum_deltas e.2.m_transactions ∧
  0 ≤ e.2.m_balance_xts

/-- The ledger of two freshly created users, `alice` at position `0` and `bob`
at position `1`. -/
def alice_bob : ledger :=
  ⟨[("alice", user.new "alice"), ("bob", user.new "bob")]⟩

/-- The ledger after `alice.transfer(bob, 30, "lunch")` on `alice_bob`. -/
def after_lunch : ledger :=
  (user.transfer alice_bob ⟨0, by decide⟩ ⟨1, by decide⟩ 30 "lunch").2

/-- The method `user_transactions_iterator::wait_next_transaction`.  The call
reads `*m_user` each time it holds the mutex: on entry and after every return
of `m_cond.wait`; `obs` lists the states of `*m_user` it reads, in order.  While
`pos >= m_transactions.size()` the call waits for the next state; when the
states are used up it is still blocked, which is the result `none` with the
iterator as it was.  Otherwise it returns `m_transactions[pos]` and increments
`pos`. -/
def user_transactions_iterator.wait_next_transaction (it : user_transactions_iterator) :
    List user → Option transaction × user_transactions_iterator
  | [] => (none, it)
  | u :: obs =>
    if h : it.pos ≥ u.m_transactions.length then
      wait_next_transaction it obs
    else
      (some (u.m_transactions.get ⟨it.pos, Nat.lt_of_not_ge h⟩), { it with pos := it.pos + 1 })

/-- Successive calls of `wait_next_transaction` on one iterator, the `i`-th call
reading the states `oss[i]`: the results of the calls in order, and the
iterator after the last call. -/
def user_transactions_iterator.waits (it : user_transactions_iterator) :
    List (List user) → List (Option transaction) × user_transactions_iterator
  | [] => ([], it)
  | obs :: oss =>
    ((it.wait_next_transaction obs).1 :: ((it.wait_next_transaction obs).2.waits oss).1,
      ((it.wait_next_transaction obs).2.waits oss).2)

/-- The account `bob` after `alice.transfer(bob, 30, "lunch")`. -/
def bob_after_lunch : user :=
  ⟨"bob", 130, [seed_deposit "bob", ⟨some 0, 30, "lunch"⟩]⟩

/-- The private constructor `user_transactions_iterator(const user *user)`,
called with the mutex of the user held: the iterator is bound to the user and
starts at the current size of its log. -/
def user_transactions_iterator.new (l : ledger) (user : Fin l.users.length) :
    user_transactions_iterator :=
  { m_user := user, pos := (l.users[user]).2.m_transactions.length }

/-- The method `user::snapshot_transactions`.  The callback acts on the state
`s` captured by the caller; it is called with the log and the balance of the
user, and then the iterator is constructed.  The method is `const`: the ledger
after the call is the ledger before it. -/
def user.snapshot_transactions {σ : Type} (l : ledger) (self : Fin l.users.length)
    (callback : List transaction → Int → σ → σ) (s : σ) :
    (user_transactions_iterator × σ) × ledger :=
  let s1 := callback (l.users[self]).2.m_transactions (l.users[self]).2.m_balance_xts s
  ((user_transactions_iterator.new l self, s1), l)

/-- The method `user::monitor`; it is `const` as well. -/
def user.monitor (l : ledger) (self : Fin l.users.length) :
    user_transactions_iterator × ledger :=
  (user_transactions_iterator.new l self, l)

/-- A mutating call a client makes on the ledger, with user references given
as positions. -/
inductive call where
  | get_or_create_user (name : String)
  | transfer (A B : Nat) (amount_xts : Int) (comment : String)
deriving DecidableEq

/-- The ledger after one call.  A `transfer` naming a position that holds no
user is not a call a client can make; it leaves the ledger as it is. -/
def call.run (l : ledger) : call → ledger
  | .get_or_create_user name => (l.get_or_create_user name).2
  | .transfer A B amount_xts comment =>
    if h : A < l.users.length ∧ B < l.users.length then
      (user.transfer l ⟨A, h.1⟩ ⟨B, h.2⟩ amount_xts comment).2
    else l

/-- The ledger after a sequence of calls. -/
def run (l : ledger) : List call → ledger
  | [] => l
  | c :: cs => run (c.run l) cs

/-- The entry that a call made on `l` is expected to append to the log of the
user at `P`: a successful transfer from `P` to `B` appends `(B, -amount,
comment)`, a successful transfer from `A` to `P` appends `(A, +amount,
comment)`, and no other call appends anything. -/
def call.appended (l : ledger) (P : Nat) : call → List transaction
  | .get_or_create_user _ => []
  | .transfer A B amount_xts comment =>
    if h : A < l.users.length ∧ B < l.users.length then
      match (user.transfer l ⟨A, h.1⟩ ⟨B, h.2⟩ amount_xts comment).1 with
      | .ok _ =>
        if P = A then [⟨some B, -amount_xts, comment⟩]
        else if P = B then [⟨some A, amount_xts, comment⟩]
        else []
      | .error _ => []
    else []

/-- The entries that the successful transfers of a sequence of calls, made one
after the other from `l`, are expected to append to the log of the user at `P`,
in the order of the calls. -/
def appended (l : ledger) (P : Nat) : List call → List transaction
  | [] => []
  | c :: cs => c.appended l P ++ appended (c.run l) P cs

/-- The call `alice.transfer(bob, 10, "tip")`. -/
def tip_call : call := .transfer 0 1 10 "tip"

/-- The ledger of three freshly created users `alice`, `bob` and `carol`, at
positions `0`, `1` and `2`. -/
def alice_bob_carol : ledger := (alice_bob.get_or_create_user "carol").2

/-- The sum of the balances of all accounts of a ledger. -/
def total_balance (l : ledger) : Int :=
  (l.users.map (fun e => e.2.m_balance_xts)).sum

/-- The largest value of a 32-bit `int`. -/
def INT_MAX : Int := 2147483647

/-- The smallest value of a 32-bit `int`. -/
def INT_MIN : Int := -2147483648

/-- The value is representable as a 32-bit `int`: an operation of the source
whose mathematical result satisfies this does not overflow. -/
abbrev in_int_range (x : Int) : Prop := INT_MIN ≤ x ∧ x ≤ INT_MAX

/-- The entries of a log whose counterparty is the user at `q`, in log order. -/
def entries_with (log : List transaction) (q : Nat) : List transaction :=
  log.filter (fun t => decide (t.counterparty = some q))

/-- The logs of the users at `p` and at `q` mirror each other: the entries of
the first with counterparty `q` and the entries of the second with counterparty
`p` are equally many and pairwise carry opposite deltas and the same comment. -/
def mirrored (log_p log_q : List transaction) (p q : Nat) : Prop :=
  (entries_with log_p q).map (fun t => (t.balance_delta_xts, t.comment)) =
    (entries_with log_q p).map (fun t => (-t.balance_delta_xts, t.comment))

/-! ## The display of `get_transactions` (`bank_server.cpp`) -/

/-- The value of `display_transactions` after
`std::min(display_transactions, static_cast<int>(transactions_snapshot.size()))`,
for the number `n` read from the client and a snapshot of `size` entries. -/
def display_count (n : Int) (size : Nat) : Int := min n size

/-- The offset from `begin()` of the iterator
`transactions_snapshot.end() - display_transactions` at which the display loop
starts. -/
def display_start (n : Int) (size : Nat) : Int := size - display_count n size

/-- The entries written by the display loop of `get_transactions`, from the
start iterator up to `end()`, together with the balance written after them.
When the start iterator lies outside the snapshot the loop reads outside the
vector and the call has no defined result, which is `none`. -/
def get_transactions_display (transactions_snapshot : List transaction)
    (balance_snapshot : Int) (n : Int) : Option (List transaction × Int) :=
  if 0 ≤ display_start n transactions_snapshot.length ∧
      display_start n transactions_snapshot.length ≤ transactions_snapshot.length then
    some (transactions_snapshot.drop (display_start n transactions_snapshot.length).toNat,
      balance_snapshot)
  else none

/-! ## The arithmetic of `transfer` at 32 bits -/

/-- The value a 32-bit two's-complement `int` holds after an operation whose
mathematical result is `x`: `x` itself when `x` is a 32-bit `int`, and `x`
reduced modulo `2^32` into `[INT_MIN, INT_MAX]` when the operation overflows. -/
def wrap_i32 (x : Int) : Int := (x + 2147483648) % 4294967296 - 2147483648

/-- The method `user::add_funds_unchecked` with `m_balance_xts +=
balance_delta_xts` carried out on the 32-bit `int` member. -/
def user.add_funds_unchecked_i32 (self : user) (counterparty : Nat)
    (balance_delta_xts : Int) (comment : String) : user :=
  { self with
    m_balance_xts := wrap_i32 (self.m_balance_xts + balance_delta_xts)
    m_transactions :=
      self.m_transactions ++ [⟨some counterparty, balance_delta_xts, comment⟩] }

/-- The method `user::transfer` with its `int` operations carried out at 32
bits: the same three checks, then the negation `-amount_xts` and the two calls
of `add_funds_unchecked`. -/
def user.transfer_i32 (l : ledger) (self counterparty : Fin l.users.length)
    (amount_xts : Int) (comment : String) : Except transfer_error Unit × ledger :=
  if self = counterparty then
    (.error self_transfer_error, l)
  else if amount_xts ≤ 0 then
    (.error nonpositive_amount_transfer_error, l)
  else if (l.users[self]).2.m_balance_xts < amount_xts then
    (.error (not_enough_funds_error (l.users[self]).2.m_balance_xts amount_xts), l)
  else
    let l1 : ledger :=
      ⟨with_user l.users self
        (fun u => u.add_funds_unchecked_i32 counterparty (wrap_i32 (-amount_xts)) comment)⟩
    let l2 : ledger :=
      ⟨with_user l1.users counterparty
        (fun u => u.add_funds_unchecked_i32 self amount_xts comment)⟩
    (.ok (), l2)

/-- One call on the ledger, with the arithmetic of `transfer` at 32 bits. -/
inductive step_i32 : ledger → ledger → Prop where
  | get_or_create_user (l : ledger) (name : String) :
      step_i32 l (l.get_or_create_user name).2
  | transfer (l : ledger) (A B : Fin l.users.length) (amount : Int) (comment : String) :
      step_i32 l (user.transfer_i32 l A B amount comment).2

/-- The ledgers reachable from the empty ledger by calls of
`get_or_create_user` and `transfer`, with the arithmetic of `transfer` at 32
bits. -/
inductive reachable_i32 : ledger → Prop where
  | empty : reachable_i32 ⟨[]⟩
  | step {l l' : ledger} : reachable_i32 l → step_i32 l l' → reachable_i32 l'

/-- The ledger after one call, with the arithmetic of `transfer` at 32 bits. -/
def call.run_i32 (l : ledger) : call → ledger
  | .get_or_create_user name => (l.get_or_create_user name).2
  | .transfer A B amount_xts comment =>
    if h : A < l.users.length ∧ B < l.users.length then
      (user.transfer_i32 l ⟨A, h.1⟩ ⟨B, h.2⟩ amount_xts comment).2
    else l

/-- The name of the `i`-th client of `pumped`: `i + 1` letters `a`. -/
def client_name (i : Nat) : String := String.mk (List.replicate (i + 1) 'a')

/-- The ledger after client `0` has been created and then, for each `i` from `1`
to `m` in turn, client `i` has been created and has transferred its `100` XTS
to client `0`. -/
def pumped : Nat → ledger
  | 0 => call.run_i32 ⟨[]⟩ (.get_or_create_user (client_name 0))
  | m + 1 =>
    call.run_i32
      (call.run_i32 (pumped m) (.get_or_create_user (client_name (m + 1))))
      (.transfer (m + 1) 0 100 "pump")

/-- A ledger whose balances are 32-bit `int`s: `alice` with `100` XTS at
position `0` and `bob` with `2147483647` XTS at position `1`. -/
def alice_rich_bob : ledger :=
  ⟨[("alice", ⟨"alice", 100, [seed_deposit "alice"]⟩),
    ("bob", ⟨"bob", 2147483647, [seed_deposit "bob"]⟩)]⟩

/-- The ledger after `alice.transfer(bob, 30, "lunch")` on `alice_bob`, with
the arithmetic at 32 bits. -/
def after_lunch_i32 : ledger :=
  (user.transfer_i32 alice_bob ⟨0, by decide⟩ ⟨1, by decide⟩ 30 "lunch").2

theorem length_with_user (es : List (String × user)) (p : Nat) (f : user → user) :
    (with_user es p f).length = es.length := by
  induction es generalizing p with
  | nil => rfl
  | cons e es ih =>
    cases p with
    | zero => rfl
    | succ p => simp [with_user, ih]

theorem getElem?_with_user (es : List (String × user)) (p q : Nat) (f : user → user) :
    (with_user es p f)[q]? =
      if p = q then (es[q]?).map (fun e => (e.1, f e.2)) else es[q]? := by
  induction es generalizing p q with
  | nil => simp [with_user]
  | cons e es ih =>
    cases p with
    | zero =>
      cases q with
      | zero => simp [with_user]
      | succ q => simp [with_user]
    | succ p =>
      cases q with
      | zero => simp [with_user]
      | succ q => simp [with_user, ih]

theorem getElem?_with_user_self (es : List (String × user)) (p : Nat) (f : user → user) :
    (with_user es p f)[p]? = (es[p]?).map (fun e => (e.1, f e.2)) := by
  simp [getElem?_with_user]

theorem getElem?_with_user_ne (es : List (String × user)) {p q : Nat} (h : p ≠ q)
    (f : user → user) : (with_user es p f)[q]? = es[q]? := by
  simp [getElem?_with_user, h]

theorem mem_with_user {es : List (String × user)} {p : Nat} {f : user → user}
    {e' : String × user} (h : e' ∈ with_user es p f) :
    e' ∈ es ∨ ∃ e, es[p]? = some e ∧ e' = (e.1, f e.2) := by
  obtain ⟨q, hq⟩ := List.mem_iff_getElem?.mp h
  rw [getElem?_with_user] at hq
  split at hq
  · next hpq =>
    subst hpq
    right
    cases hes : es[p]? with
    | none => simp [hes] at hq
    | some e =>
      refine ⟨e, rfl, ?_⟩
      simp [hes] at hq
      exact hq.symm
  · exact Or.inl (List.mem_iff_getElem?.mpr ⟨q, hq⟩)

theorem map_fst_with_user (es : List (String × user)) (p : Nat) (f : user → user) :
    (with_user es p f).map Prod.fst = es.map Prod.fst := by
  induction es generalizing p with
  | nil => rfl
  | cons e es ih =>
    cases p with
    | zero => rfl
    | succ p => simp [with_user, ih]

/-! ## Lookup -/

theorem find_user_eq_none {es : List (String × user)} {name : String} :
    find_user es name = none ↔ ∀ e ∈ es, e.1 ≠ name := by
  induction es with
  | nil => simp [find_user]
  | cons e es ih =>
    by_cases h : e.1 = name
    · simp [find_user, h]
    · simp [find_user, h, ih]

theorem find_user_eq_some {es : List (String × user)} {name : String} {p : Nat}
    (h : find_user es name = some p) : ∃ e, es[p]? = some e ∧ e.1 = name := by
  induction es generalizing p with
  | nil => simp [find_user] at h
  | cons e es ih =>
    by_cases hn : e.1 = name
    · simp [find_user, hn] at h
      subst h
      exact ⟨e, by simp, hn⟩
    · simp [find_user, hn] at h
      obtain ⟨q, hq, rfl⟩ := h
      simpa using ih hq


/-- On the success path, `transfer` returns normally and the ledger is the old
one with the two calls of `add_funds_unchecked` applied. -/
theorem transfer_ok (l : ledger) (A B : Fin l.users.length) (amount : Int)
    (comment : String) (hAB : A ≠ B) (hpos : 0 < amount)
    (hle : amount ≤ (l.users[A]).2.m_balance_xts) :
    user.transfer l A B amount comment =
      (.ok (), ⟨with_user
        (with_user l.users A (fun u => u.add_funds_unchecked B (-amount) comment)) B
        (fun u => u.add_funds_unchecked A amount comment)⟩) := by
  unfold user.transfer
  rw [if_neg hAB, if_neg (not_le.mpr hpos), if_neg (not_lt.mpr hle)]

theorem find_user_append_new {es : List (String × user)} {name : String} (u : user)
    (h : ∀ e ∈ es, e.1 ≠ name) : find_user (es ++ [(name, u)]) name = some es.length := by
  induction es with
  | nil => simp [find_user]
  | cons e es ih =>
    have he : e.1 ≠ name := h e (List.mem_cons_self _ _)
    have ih' := ih (fun e' he' => h e' (List.mem_cons_of_mem _ he'))
    simp [find_user, he, ih']

/-! ## The two outcomes of `transfer` -/

/-- Either `transfer` throws and the ledger is untouched, or all three checks
pass and the ledger is the old one with both calls of `add_funds_unchecked`
applied. -/
theorem transfer_cases (l : ledger) (A B : Fin l.users.length) (amount : Int)
    (comment : String) :
    ((∃ err, user.transfer l A B amount comment = (.error err, l)) ∨
      (A ≠ B ∧ 0 < amount ∧ amount ≤ (l.users[A]).2.m_balance_xts ∧
        user.transfer l A B amount comment =
          (.ok (), ⟨with_user
            (with_user l.users A (fun u => u.add_funds_unchecked B (-amount) comment)) B
            (fun u => u.add_funds_unchecked A amount comment)⟩))) := by
  by_cases hAB : A = B
  · left; exact ⟨_, by unfold user.transfer; rw [if_pos hAB]⟩
  by_cases hpos : amount ≤ 0
  · left; exact ⟨_, by unfold user.transfer; rw [if_neg hAB, if_pos hpos]⟩
  by_cases hle : (l.users[A]).2.m_balance_xts < amount
  · left; exact ⟨_, by unfold user.transfer; rw [if_neg hAB, if_neg hpos, if_pos hle]⟩
  · right
    exact ⟨hAB, not_le.mp hpos, not_lt.mp hle,
      transfer_ok l A B amount comment hAB (not_le.mp hpos) (not_lt.mp hle)⟩

/-- The two accounts after the two calls of `add_funds_unchecked` made by a
transfer between distinct accounts. -/
theorem deref_after_add_funds (l : ledger) (A B : Fin l.users.length) (amount : Int)
    (comment : String) (hAB : A ≠ B) :
    (ledger.mk (with_user
        (with_user l.users A (fun u => u.add_funds_unchecked B (-amount) comment)) B
        (fun u => u.add_funds_unchecked A amount comment))).deref A = some
      { (l.users[A]).2 with
        m_balance_xts := (l.users[A]).2.m_balance_xts - amount
        m_transactions :=
          (l.users[A]).2.m_transactions ++ [⟨some B, -amount, comment⟩] } ∧
    (ledger.mk (with_user
        (with_user l.users A (fun u => u.add_funds_unchecked B (-amount) comment)) B
        (fun u => u.add_funds_unchecked A amount comment))).deref B = some
      { (l.users[B]).2 with
        m_balance_xts := (l.users[B]).2.m_balance_xts + amount
        m_transactions :=
          (l.users[B]).2.m_transactions ++ [⟨some A, amount, comment⟩] } := by
  have hne : (A : Nat) ≠ B := fun h => hAB (Fin.ext h)
  constructor
  · simp only [ledger.deref]
    rw [getElem?_with_user_ne _ hne.symm, getElem?_with_user_self,
      List.getElem?_eq_getElem A.isLt]
    simp [user.add_funds_unchecked, sub_eq_add_neg]
  · simp only [ledger.deref]
    rw [getElem?_with_user_self, getElem?_with_user_ne _ hne,
      List.getElem?_eq_getElem B.isLt]
    simp [user.add_funds_unchecked]

/-! ## Invariants of reachable ledgers -/

theorem user_ok_new (name : String) : user_ok (name, user.new name) := by
  refine ⟨rfl, ⟨[], rfl⟩, ?_, ?_⟩
  · simp [user.new, sum_deltas]
  · simp [user.new, INITIAL_BALANCE]

theorem user_ok_add_funds {e : String × user} (h : user_ok e) (cp : Nat) (delta : Int)
    (comment : String) (hd : 0 ≤ e.2.m_balance_xts + delta) :
    user_ok (e.1, e.2.add_funds_unchecked cp delta comment) := by
  obtain ⟨hn, ⟨rest, hrest⟩, hsum, _⟩ := h
  refine ⟨hn, ⟨rest ++ [⟨some cp, delta, comment⟩], ?_⟩, ?_, hd⟩
  · simp [user.add_funds_unchecked, hrest]
  · simp [user.add_funds_unchecked, sum_deltas] at hsum ⊢
    rw [hsum]

theorem users_ok_step {l l' : ledger} (hs : step l l')
    (h : ∀ e ∈ l.users, user_ok e) : ∀ e ∈ l'.users, user_ok e := by
  cases hs with
  | get_or_create_user name =>
    unfold ledger.get_or_create_user
    split
    · intro e he
      simp only [List.mem_append, List.mem_singleton] at he
      rcases he with he | rfl
      · exact h e he
      · exact user_ok_new name
    · exact h
  | transfer A B amount comment =>
    rcases transfer_cases l A B amount comment with ⟨err, herr⟩ | ⟨hAB, hpos, hle, hok⟩
    · rw [herr]; exact h
    · rw [hok]
      have hne : (A : Nat) ≠ B := fun hv => hAB (Fin.ext hv)
      intro e he
      rcases mem_with_user he with he1 | ⟨e1, he1, rfl⟩
      · rcases mem_with_user he1 with he0 | ⟨e0, he0, rfl⟩
        · exact h e he0
        · rw [List.getElem?_eq_getElem A.isLt] at he0
          cases he0
          exact user_ok_add_funds (h _ (List.getElem_mem _)) B (-amount) comment
            (by have : amount ≤ (l.users[A.val]).2.m_balance_xts := hle
                omega)
      · rw [getElem?_with_user_ne _ hne, List.getElem?_eq_getElem B.isLt] at he1
        cases he1
        have hB := h _ (List.getElem_mem B.isLt)
        exact user_ok_add_funds hB A amount comment (by have := hB.2.2.2; omega)

theorem users_ok_of_reachable {l : ledger} (h : reachable l) :
    ∀ e ∈ l.users, user_ok e := by
  induction h with
  | empty => intro e he; cases he
  | step _ hs ih => exact users_ok_step hs ih

theorem keys_nodup_step {l l' : ledger} (hs : step l l')
    (h : (l.users.map Prod.fst).Nodup) : (l'.users.map Prod.fst).Nodup := by
  cases hs with
  | get_or_create_user name =>
    unfold ledger.get_or_create_user
    split
    · next hnone =>
      have hnew := find_user_eq_none.mp hnone
      simp only [List.map_append, List.map_cons, List.map_nil]
      refine List.Nodup.append h (List.nodup_singleton _) ?_
      intro k hk hk'
      rw [List.mem_singleton] at hk'
      subst hk'
      obtain ⟨e, he, rfl⟩ := List.mem_map.mp hk
      exact hnew e he rfl
    · exact h
  | transfer A B amount comment =>
    rcases transfer_cases l A B amount comment with ⟨err, herr⟩ | ⟨_, _, _, hok⟩
    · rw [herr]; exact h
    · rw [hok]
      simp only [map_fst_with_user]
      exact h

theorem keys_nodup_of_reachable {l : ledger} (h : reachable l) :
    (l.users.map Prod.fst).Nodup := by
  induction h with
  | empty => exact List.nodup_nil
  | step _ hs ih => exact keys_nodup_step hs ih

theorem map_name_eq_map_fst {es : List (String × user)} (h : ∀ e ∈ es, user_ok e) :
    es.map (fun e => e.2.name) = es.map Prod.fst :=
  List.map_congr_left (fun e he => (h e he).1)

theorem reachable_alice_bob : reachable alice_bob :=
  .step (.step .empty (.get_or_create_user ⟨[]⟩ "alice"))
    (.get_or_create_user ⟨[("alice", user.new "alice")]⟩ "bob")

theorem reachable_after_lunch : reachable after_lunch :=
  .step reachable_alice_bob (.transfer alice_bob ⟨0, by decide⟩ ⟨1, by decide⟩ 30 "lunch")

/-! ## Iterators -/

/-- One call of `wait_next_transaction` that only reads states whose logs are
prefixes of `full` either stays blocked or returns entry `pos` of `full`. -/
theorem wait_next_transaction_growing_log (it : user_transactions_iterator)
    (full : List transaction) (obs : List user)
    (h : ∀ u ∈ obs, u.m_transactions <+: full) :
    it.wait_next_transaction obs = (none, it) ∨
    ∃ t, full[it.pos]? = some t ∧
      it.wait_next_transaction obs = (some t, ⟨it.m_user, it.pos + 1⟩) := by
  induction obs with
  | nil => exact Or.inl rfl
  | cons u obs ih =>
    unfold user_transactions_iterator.wait_next_transaction
    split
    · exact ih (fun v hv => h v (List.mem_cons_of_mem _ hv))
    · next hlt =>
      right
      have hlt' : it.pos < u.m_transactions.length := Nat.lt_of_not_ge hlt
      refine ⟨u.m_transactions.get ⟨it.pos, hlt'⟩, ?_, rfl⟩
      obtain ⟨rest, hrest⟩ := h u (List.mem_cons_self _ _)
      rw [← hrest, List.getElem?_append_left hlt', List.getElem?_eq_getElem hlt']
      rfl

theorem waits_growing_log (full : List transaction) (oss : List (List user)) :
    ∀ it : user_transactions_iterator,
      (∀ obs ∈ oss, ∀ u ∈ obs, u.m_transactions <+: full) →
      (it.waits oss).2.m_user = it.m_user ∧
      (it.waits oss).2.pos = it.pos + (it.waits oss).1.reduceOption.length ∧
      (it.waits oss).1.reduceOption =
        (full.drop it.pos).take (it.waits oss).1.reduceOption.length := by
  induction oss with
  | nil => intro it _; simp [user_transactions_iterator.waits]
  | cons obs oss ih =>
    intro it h
    have hrest : ∀ obs' ∈ oss, ∀ u ∈ obs', u.m_transactions <+: full :=
      fun obs' ho => h obs' (List.mem_cons_of_mem _ ho)
    unfold user_transactions_iterator.waits
    rcases wait_next_transaction_growing_log it full obs (h obs (List.mem_cons_self _ _)) with
      hw | ⟨t, ht, hw⟩
    · rw [hw]
      obtain ⟨h1, h2, h3⟩ := ih it hrest
      simp only [List.reduceOption_cons_of_none]
      exact ⟨h1, h2, h3⟩
    · rw [hw]
      obtain ⟨h1, h2, h3⟩ := ih ⟨it.m_user, it.pos + 1⟩ hrest
      simp only [List.reduceOption_cons_of_some, List.length_cons] at h1 h2 h3 ⊢
      refine ⟨h1, by rw [h2]; omega, ?_⟩
      have hlt : it.pos < full.length := by
        by_contra hge
        rw [List.getElem?_eq_none (Nat.le_of_not_lt hge)] at ht
        cases ht
      have ht' : full[it.pos] = t := by
        rw [List.getElem?_eq_getElem hlt] at ht
        exact Option.some.inj ht
      rw [List.drop_eq_getElem_cons hlt, List.take_succ_cons, ht', ← h3]

/-! ## Effect of one call on each user -/

/-- The entry at any position after the two calls of `add_funds_unchecked` made
by a transfer between distinct users. -/
theorem getElem?_after_add_funds (es : List (String × user)) {A B : Nat} (hAB : A ≠ B)
    (fA fB : user → user) (r : Nat) :
    (with_user (with_user es A fA) B fB)[r]? =
      (es[r]?).map (fun e =>
        (e.1, if r = A then fA e.2 else if r = B then fB e.2 else e.2)) := by
  rw [getElem?_with_user, getElem?_with_user]
  by_cases hB : B = r
  · subst hB
    simp only [if_true, if_neg hAB, if_neg hAB.symm]
  · by_cases hA : A = r
    · subst hA
      simp only [if_neg hB, if_true]
    · simp only [if_neg hB, if_neg hA, if_neg (Ne.symm hA), if_neg (Ne.symm hB)]
      cases es[r]? <;> simp

/-- What `transfer` does to the user at any position `r`: the key and the name
stay, the log grows by the entry expected for `r`, and a user that is neither
the source nor the destination is unchanged. -/
theorem transfer_at (l : ledger) (A B : Fin l.users.length) (amount : Int)
    (comment : String) (r : Nat) (e : String × user) (he : l.users[r]? = some e) :
    ∃ u' : user,
      (user.transfer l A B amount comment).2.users[r]? = some (e.1, u') ∧
      u'.m_name = e.2.m_name ∧
      u'.m_transactions =
        e.2.m_transactions ++ call.appended l r (.transfer A B amount comment) ∧
      (r ≠ A → r ≠ B → u' = e.2) := by
  have hdite : (A : Nat) < l.users.length ∧ (B : Nat) < l.users.length := ⟨A.isLt, B.isLt⟩
  rcases transfer_cases l A B amount comment with ⟨err, herr⟩ | ⟨hAB, _, _, hok⟩
  · refine ⟨e.2, by rw [herr]; exact he, rfl, ?_, fun _ _ => rfl⟩
    simp only [call.appended, dif_pos hdite, Fin.eta, herr, List.append_nil]
  · have hne : (A : Nat) ≠ B := fun hv => hAB (Fin.ext hv)
    have hget := getElem?_after_add_funds l.users hne
      (fun u => u.add_funds_unchecked B (-amount) comment)
      (fun u => u.add_funds_unchecked A amount comment) r
    rw [he] at hget
    refine ⟨_, by rw [hok]; exact hget, ?_, ?_, ?_⟩
    · split <;> [rfl; split <;> rfl]
    · simp only [call.appended, dif_pos hdite, Fin.eta, hok]
      split <;> [rfl; split <;> simp [user.add_funds_unchecked]]
    · intro h1 h2
      simp only [if_neg h1, if_neg h2]

theorem length_transfer (l : ledger) (A B : Fin l.users.length) (amount : Int)
    (comment : String) :
    (user.transfer l A B amount comment).2.users.length = l.users.length := by
  rcases transfer_cases l A B amount comment with ⟨err, herr⟩ | ⟨_, _, _, hok⟩
  · rw [herr]
  · rw [hok]; simp only [length_with_user]

/-- What any call does to the user at any position `r` that holds a user. -/
theorem call_run_at (l : ledger) (c : call) (r : Nat) (e : String × user)
    (he : l.users[r]? = some e) :
    ∃ u' : user,
      (c.run l).users[r]? = some (e.1, u') ∧
      u'.m_name = e.2.m_name ∧
      u'.m_transactions = e.2.m_transactions ++ c.appended l r := by
  cases c with
  | get_or_create_user name =>
    refine ⟨e.2, ?_, rfl, by simp [call.appended]⟩
    simp only [call.run, ledger.get_or_create_user]
    split
    · have hr : r < l.users.length := by
        by_contra hge
        rw [List.getElem?_eq_none (Nat.le_of_not_lt hge)] at he
        cases he
      simp only []
      rw [List.getElem?_append_left hr]
      exact he
    · exact he
  | transfer A B amount comment =>
    by_cases h : A < l.users.length ∧ B < l.users.length
    · obtain ⟨u', h1, h2, h3, _⟩ := transfer_at l ⟨A, h.1⟩ ⟨B, h.2⟩ amount comment r e he
      exact ⟨u', by simp only [call.run, dif_pos h]; exact h1, h2, h3⟩
    · exact ⟨e.2, by simp only [call.run, dif_neg h]; exact he, rfl,
        by simp [call.appended, dif_neg h]⟩

/-- What a sequence of calls does to the user at any position `r` that holds a
user. -/
theorem run_at (calls : List call) :
    ∀ (l : ledger) (r : Nat) (e : String × user), l.users[r]? = some e →
      ∃ u' : user,
        (run l calls).users[r]? = some (e.1, u') ∧
        u'.m_name = e.2.m_name ∧
        u'.m_transactions = e.2.m_transactions ++ appended l r calls := by
  induction calls with
  | nil => intro l r e he; exact ⟨e.2, he, rfl, by simp [appended]⟩
  | cons c cs ih =>
    intro l r e he
    obtain ⟨u1, h1, h2, h3⟩ := call_run_at l c r e he
    obtain ⟨u', h1', h2', h3'⟩ := ih (c.run l) r (e.1, u1) h1
    exact ⟨u', h1', by rw [h2', h2], by
      rw [h3', h3]
      simp [appended]⟩

theorem step_call_run (l : ledger) (c : call) : step l (c.run l) ∨ c.run l = l := by
  cases c with
  | get_or_create_user name => exact Or.inl (.get_or_create_user l name)
  | transfer A B amount comment =>
    by_cases h : A < l.users.length ∧ B < l.users.length
    · left
      simp only [call.run, dif_pos h]
      exact .transfer l ⟨A, h.1⟩ ⟨B, h.2⟩ amount comment
    · right
      simp only [call.run, dif_neg h]

theorem reachable_run (calls : List call) :
    ∀ l : ledger, reachable l → reachable (run l calls) := by
  induction calls with
  | nil => intro l h; exact h
  | cons c cs ih =>
    intro l h
    refine ih (c.run l) ?_
    rcases step_call_run l c with hs | heq
    · exact .step h hs
    · rw [heq]; exact h

/-- A transfer changes neither the key nor the user name of any entry. -/
theorem map_name_transfer (l : ledger) (A B : Fin l.users.length) (amount : Int)
    (comment : String) :
    (user.transfer l A B amount comment).2.users.map (fun e => (e.1, e.2.name)) =
      l.users.map (fun e => (e.1, e.2.name)) := by
  apply List.ext_getElem?
  intro r
  rw [List.getElem?_map, List.getElem?_map]
  cases he : l.users[r]? with
  | none =>
    have hr : l.users.length ≤ r := by
      by_contra hlt
      rw [List.getElem?_eq_getElem (Nat.lt_of_not_le hlt)] at he
      cases he
    rw [List.getElem?_eq_none (by rw [length_transfer]; exact hr)]
  | some e =>
    obtain ⟨u', h1, h2, _, _⟩ := transfer_at l A B amount comment r e he
    rw [h1]
    simp [user.name, h2]

/-! ## The three kinds of step -/

/-- A step leaves the ledger as it is (a lookup of an existing name, a transfer
that throws), or adds a freshly constructed user under a new key at the end, or
is a successful transfer between two distinct users. -/
theorem step_cases {l l' : ledger} (hs : step l l') :
    l' = l ∨
    (∃ name : String, (∀ e ∈ l.users, e.1 ≠ name) ∧
      l' = ⟨l.users ++ [(name, user.new name)]⟩) ∨
    (∃ (A B : Fin l.users.length) (amount : Int) (comment : String),
      (A : Nat) ≠ B ∧ 0 < amount ∧ amount ≤ (l.users[A]).2.m_balance_xts ∧
      l' = ⟨with_user
        (with_user l.users A (fun u => u.add_funds_unchecked B (-amount) comment)) B
        (fun u => u.add_funds_unchecked A amount comment)⟩) := by
  cases hs with
  | get_or_create_user name =>
    cases hfind : find_user l.users name with
    | none =>
      right; left
      refine ⟨name, find_user_eq_none.mp hfind, ?_⟩
      unfold ledger.get_or_create_user
      rw [hfind]
    | some p =>
      left
      unfold ledger.get_or_create_user
      rw [hfind]
  | transfer A B amount comment =>
    rcases transfer_cases l A B amount comment with ⟨err, herr⟩ | ⟨hAB, hpos, hle, hok⟩
    · left; rw [herr]
    · right; right
      exact ⟨A, B, amount, comment, fun hv => hAB (Fin.ext hv), hpos, hle, by rw [hok]⟩

/-! ## The sum of all balances -/

theorem sum_balances_with_user (es : List (String × user)) (p : Nat) (f : user → user)
    (e : String × user) (he : es[p]? = some e) :
    ((with_user es p f).map (fun e => e.2.m_balance_xts)).sum =
      (es.map (fun e => e.2.m_balance_xts)).sum +
        ((f e.2).m_balance_xts - e.2.m_balance_xts) := by
  induction es generalizing p with
  | nil => simp at he
  | cons x xs ih =>
    cases p with
    | zero =>
      simp only [List.getElem?_cons_zero, Option.some.injEq] at he
      subst he
      simp only [with_user, List.map_cons, List.sum_cons]
      omega
    | succ p =>
      simp only [List.getElem?_cons_succ] at he
      simp only [with_user, List.map_cons, List.sum_cons, ih p he]
      omega

theorem total_balance_step {l l' : ledger} (hs : step l l')
    (h : total_balance l = 100 * l.users.length) :
    total_balance l' = 100 * l'.users.length := by
  rcases step_cases hs with rfl | ⟨name, _, rfl⟩ | ⟨A, B, amount, comment, hne, _, _, rfl⟩
  · exact h
  · simp only [total_balance, List.map_append, List.sum_append, List.length_append,
      List.map_cons, List.map_nil, List.sum_cons, List.sum_nil, List.length_singleton,
      user.new, INITIAL_BALANCE] at h ⊢
    rw [h]
    push_cast
    ring
  · simp only [total_balance, length_with_user] at h ⊢
    rw [sum_balances_with_user _ B _ (l.users[B])
        (by rw [getElem?_with_user_ne _ hne]; exact List.getElem?_eq_getElem B.isLt),
      sum_balances_with_user _ A _ (l.users[A]) (List.getElem?_eq_getElem A.isLt), h]
    simp only [user.add_funds_unchecked]
    omega

theorem total_balance_of_reachable {l : ledger} (h : reachable l) :
    total_balance l = 100 * l.users.length := by
  induction h with
  | empty => rfl
  | step _ hs ih => exact total_balance_step hs ih

theorem le_sum_of_nonneg (xs : List Int) (h : ∀ x ∈ xs, 0 ≤ x) : ∀ x ∈ xs, x ≤ xs.sum := by
  induction xs with
  | nil => intro x hx; cases hx
  | cons y ys ih =>
    intro x hx
    have hy : 0 ≤ y := h y (List.mem_cons_self _ _)
    have hys : ∀ z ∈ ys, 0 ≤ z := fun z hz => h z (List.mem_cons_of_mem _ hz)
    have hsum : 0 ≤ ys.sum := List.sum_nonneg hys
    rw [List.sum_cons]
    rcases List.mem_cons.mp hx with rfl | hx'
    · omega
    · have := ih hys x hx'
      omega

/-- In a reachable ledger of `n` accounts every balance is at most `100 * n`. -/
theorem balance_le_of_reachable {l : ledger} (h : reachable l) (e : String × user)
    (he : e ∈ l.users) : e.2.m_balance_xts ≤ 100 * l.users.length := by
  rw [← total_balance_of_reachable h]
  refine le_sum_of_nonneg _ ?_ _ (List.mem_map.mpr ⟨e, he, rfl⟩)
  intro x hx
  obtain ⟨e', he', rfl⟩ := List.mem_map.mp hx
  exact (users_ok_of_reachable h e' he').2.2.2

theorem getElem?_append_singleton {es : List (String × user)} {x e : String × user}
    {p : Nat} (h : (es ++ [x])[p]? = some e) :
    es[p]? = some e ∨ (p = es.length ∧ e = x) := by
  by_cases hp : p < es.length
  · rw [List.getElem?_append_left hp] at h
    exact Or.inl h
  · right
    rw [List.getElem?_append_right (Nat.le_of_not_lt hp)] at h
    have hz : p - es.length = 0 := by
      by_contra hne
      rw [List.getElem?_eq_none (by simp; omega)] at h
      cases h
    rw [hz] at h
    simp only [List.getElem?_cons_zero, Option.some.injEq] at h
    exact ⟨by omega, h.symm⟩

/-- The log of the user at any position after the two calls of
`add_funds_unchecked` made by a transfer between distinct users. -/
theorem log_after_add_funds (es : List (String × user)) {A B : Nat} (hAB : A ≠ B)
    (amount : Int) (comment : String) (r : Nat) (e' : String × user)
    (h : (with_user (with_user es A (fun u => u.add_funds_unchecked B (-amount) comment)) B
      (fun u => u.add_funds_unchecked A amount comment))[r]? = some e') :
    ∃ e, es[r]? = some e ∧
      e'.2.m_transactions = e.2.m_transactions ++
        (if r = A then [⟨some B, -amount, comment⟩]
          else if r = B then [⟨some A, amount, comment⟩] else []) := by
  rw [getElem?_after_add_funds es hAB] at h
  cases hl : es[r]? with
  | none => simp [hl] at h
  | some e =>
    refine ⟨e, rfl, ?_⟩
    simp only [hl, Option.map_some', Option.some.injEq] at h
    subst h
    simp only []
    split
    · rfl
    · split
      · rfl
      · simp

/-- In a reachable ledger every counterparty pointer of every log points to a
user of the ledger, and the entry that holds it has a delta other than `0`. -/
theorem counterparty_of_reachable {l : ledger} (h : reachable l) :
    ∀ e ∈ l.users, ∀ t ∈ e.2.m_transactions, ∀ c, t.counterparty = some c →
      c < l.users.length ∧ t.balance_delta_xts ≠ 0 := by
  induction h with
  | empty => intro e he; cases he
  | @step l l' hr hs ih =>
    rcases step_cases hs with rfl | ⟨name, _, rfl⟩ | ⟨A, B, amount, comment, hne, hpos, hle, rfl⟩
    · exact ih
    · intro e he t ht c hc
      simp only [List.mem_append, List.mem_singleton] at he
      simp only [List.length_append, List.length_singleton]
      rcases he with he | rfl
      · have := ih e he t ht c hc
        exact ⟨by omega, this.2⟩
      · simp only [user.new, List.mem_singleton] at ht
        subst ht
        cases hc
    · intro e' he' t ht c hc
      simp only [length_with_user]
      obtain ⟨r, hr'⟩ := List.mem_iff_getElem?.mp he'
      obtain ⟨e, hl, hlog⟩ := log_after_add_funds l.users hne amount comment r e' hr'
      have hmem : e ∈ l.users := List.mem_iff_getElem?.mpr ⟨r, hl⟩
      rw [hlog, List.mem_append] at ht
      rcases ht with ht | ht
      · exact ih e hmem t ht c hc
      · split at ht
        · rw [List.mem_singleton] at ht
          subst ht
          simp only [Option.some.injEq] at hc
          subst hc
          exact ⟨B.isLt, by simp only []; omega⟩
        · split at ht
          · rw [List.mem_singleton] at ht
            subst ht
            simp only [Option.some.injEq] at hc
            subst hc
            exact ⟨A.isLt, by simp only []; omega⟩
          · cases ht

theorem entries_with_eq_nil {log : List transaction} {q : Nat}
    (h : ∀ t ∈ log, t.counterparty ≠ some q) : entries_with log q = [] := by
  simp only [entries_with, List.filter_eq_nil_iff, decide_eq_true_eq]
  exact h

theorem entries_with_append (log extra : List transaction) (q : Nat) :
    entries_with (log ++ extra) q = entries_with log q ++ entries_with extra q := by
  simp [entries_with]

/-- In a reachable ledger the logs of any two distinct users mirror each
other. -/
theorem mirrored_of_reachable {l : ledger} (h : reachable l) :
    ∀ (p q : Nat) (ea eb : String × user), p ≠ q →
      l.users[p]? = some ea → l.users[q]? = some eb →
      mirrored ea.2.m_transactions eb.2.m_transactions p q := by
  induction h with
  | empty => intro p q ea eb _ hp; simp at hp
  | @step l l' hr hs ih =>
    rcases step_cases hs with rfl | ⟨name, _, rfl⟩ | ⟨A, B, amount, comment, hne, hpos, hle, rfl⟩
    · exact ih
    · intro p q ea eb hpq hp hq
      have hptr := counterparty_of_reachable hr
      have hnone : ∀ (r : Nat) (e : String × user), l.users[r]? = some e →
          entries_with e.2.m_transactions l.users.length = [] := by
        intro r e he
        refine entries_with_eq_nil ?_
        intro t ht hc
        have := (hptr e (List.mem_iff_getElem?.mpr ⟨r, he⟩) t ht _ hc).1
        omega
      have hnew : ∀ r : Nat, entries_with (user.new name).m_transactions r = [] := by
        intro r
        refine entries_with_eq_nil ?_
        intro t ht hc
        simp only [user.new, List.mem_singleton] at ht
        subst ht
        cases hc
      rcases getElem?_append_singleton hp with hp' | ⟨rfl, rfl⟩
      · rcases getElem?_append_singleton hq with hq' | ⟨rfl, rfl⟩
        · exact ih p q ea eb hpq hp' hq'
        · simp only [mirrored, hnone p ea hp', hnew p, List.map_nil]
      · rcases getElem?_append_singleton hq with hq' | ⟨hq1, _⟩
        · simp only [mirrored, hnone q eb hq', hnew q, List.map_nil]
        · exact absurd hq1.symm hpq
    · intro p q ea' eb' hpq hp hq
      obtain ⟨ea, hpa, hloga⟩ := log_after_add_funds l.users hne amount comment p ea' hp
      obtain ⟨eb, hqb, hlogb⟩ := log_after_add_funds l.users hne amount comment q eb' hq
      have hih := ih p q ea eb hpq hpa hqb
      simp only [mirrored] at hih ⊢
      rw [hloga, hlogb, entries_with_append, entries_with_append, List.map_append,
        List.map_append, hih]
      congr 1
      by_cases hpA : p = A
      · by_cases hqB : q = B
        · subst hpA; subst hqB
          simp [entries_with, hne, hne.symm]
        · have hqA : q ≠ A := fun hv => hpq (hpA.trans hv.symm)
          subst hpA
          simp [entries_with, hqB, hqA, Ne.symm hqB]
      · by_cases hpB : p = B
        · by_cases hqA : q = A
          · subst hpB; subst hqA
            simp [entries_with, hne, hne.symm]
          · have hqB : q ≠ B := fun hv => hpq (hpB.trans hv.symm)
            subst hpB
            simp [entries_with, hqA, hqB, hne.symm, Ne.symm hqA]
        · by_cases hqA : q = A
          · subst hqA
            simp [entries_with, hpA, hpB, Ne.symm hpB, hpq.symm]
          · by_cases hqB : q = B
            · subst hqB
              simp [entries_with, hpA, hpB, hqA, Ne.symm hpA]
            · simp [entries_with, hpA, hpB, hqA, hqB]

/-! ## The display of `get_transactions` -/

/-- For a number `n ≥ 0` the display loop starts inside the snapshot and writes
its last `min(n, size)` entries, followed by the balance. -/
theorem get_transactions_display_of_nonneg (snapshot : List transaction) (balance : Int)
    (n : Int) (hn : 0 ≤ n) :
    0 ≤ display_start n snapshot.length ∧
    display_start n snapshot.length ≤ snapshot.length ∧
    get_transactions_display snapshot balance n =
      some (snapshot.drop (snapshot.length - min n.toNat snapshot.length), balance) := by
  have h1 : 0 ≤ display_start n snapshot.length := by
    simp only [display_start, display_count]
    omega
  have h2 : display_start n snapshot.length ≤ snapshot.length := by
    simp only [display_start, display_count]
    omega
  refine ⟨h1, h2, ?_⟩
  have h3 : (display_start n snapshot.length).toNat =
      snapshot.length - min n.toNat snapshot.length := by
    simp only [display_start, display_count]
    omega
  simp only [get_transactions_display, h1, h2, and_self, if_true, h3]

/-! ## The arithmetic of `transfer` at 32 bits -/

theorem wrap_i32_of_in_range {x : Int} (h : in_int_range x) : wrap_i32 x = x := by
  obtain ⟨h1, h2⟩ := h
  simp only [INT_MIN, INT_MAX] at h1 h2
  simp only [wrap_i32]
  omega

theorem wrap_i32_add_wrap_i32 (x y : Int) : wrap_i32 (wrap_i32 x + y) = wrap_i32 (x + y) := by
  simp only [wrap_i32]
  omega

/-- On the success path, `transfer_i32` returns normally and the ledger is the
old one with the two calls of `add_funds_unchecked_i32` applied. -/
theorem transfer_i32_ok (l : ledger) (A B : Fin l.users.length) (amount : Int)
    (comment : String) (hAB : A ≠ B) (hpos : 0 < amount)
    (hle : amount ≤ (l.users[A]).2.m_balance_xts) :
    user.transfer_i32 l A B amount comment =
      (.ok (), ⟨with_user
        (with_user l.users A
          (fun u => u.add_funds_unchecked_i32 B (wrap_i32 (-amount)) comment)) B
        (fun u => u.add_funds_unchecked_i32 A amount comment)⟩) := by
  unfold user.transfer_i32
  rw [if_neg hAB, if_neg (not_le.mpr hpos), if_neg (not_lt.mpr hle)]

/-- Either `transfer_i32` throws and the ledger is untouched, or all three
checks pass and the ledger is the old one with both calls of
`add_funds_unchecked_i32` applied. -/
theorem transfer_i32_cases (l : ledger) (A B : Fin l.users.length) (amount : Int)
    (comment : String) :
    ((∃ err, user.transfer_i32 l A B amount comment = (.error err, l)) ∨
      (A ≠ B ∧ 0 < amount ∧ amount ≤ (l.users[A]).2.m_balance_xts ∧
        user.transfer_i32 l A B amount comment =
          (.ok (), ⟨with_user
            (with_user l.users A
              (fun u => u.add_funds_unchecked_i32 B (wrap_i32 (-amount)) comment)) B
            (fun u => u.add_funds_unchecked_i32 A amount comment)⟩))) := by
  by_cases hAB : A = B
  · left; exact ⟨_, by unfold user.transfer_i32; rw [if_pos hAB]⟩
  by_cases hpos : amount ≤ 0
  · left; exact ⟨_, by unfold user.transfer_i32; rw [if_neg hAB, if_pos hpos]⟩
  by_cases hle : (l.users[A]).2.m_balance_xts < amount
  · left
    exact ⟨_, by unfold user.transfer_i32; rw [if_neg hAB, if_neg hpos, if_pos hle]⟩
  · right
    exact ⟨hAB, not_le.mp hpos, not_lt.mp hle,
      transfer_i32_ok l A B amount comment hAB (not_le.mp hpos) (not_lt.mp hle)⟩

/-- The two accounts after a transfer at 32 bits between distinct accounts
whose three results are 32-bit `int`s. -/
theorem deref_after_add_funds_i32 (l : ledger) (A B : Fin l.users.length) (amount : Int)
    (comment : String) (hAB : A ≠ B) (hneg : in_int_range (-amount))
    (hA : in_int_range ((l.users[A]).2.m_balance_xts + -amount))
    (hB : in_int_range ((l.users[B]).2.m_balance_xts + amount)) :
    (ledger.mk (with_user
        (with_user l.users A
          (fun u => u.add_funds_unchecked_i32 B (wrap_i32 (-amount)) comment)) B
        (fun u => u.add_funds_unchecked_i32 A amount comment))).deref A = some
      { (l.users[A]).2 with
        m_balance_xts := (l.users[A]).2.m_balance_xts - amount
        m_transactions :=
          (l.users[A]).2.m_transactions ++ [⟨some B, -amount, comment⟩] } ∧
    (ledger.mk (with_user
        (with_user l.users A
          (fun u => u.add_funds_unchecked_i32 B (wrap_i32 (-amount)) comment)) B
        (fun u => u.add_funds_unchecked_i32 A amount comment))).deref B = some
      { (l.users[B]).2 with
        m_balance_xts := (l.users[B]).2.m_balance_xts + amount
        m_transactions :=
          (l.users[B]).2.m_transactions ++ [⟨some A, amount, comment⟩] } := by
  have hne : (A : Nat) ≠ B := fun h => hAB (Fin.ext h)
  constructor
  · simp only [ledger.deref]
    rw [getElem?_with_user_ne _ hne.symm, getElem?_with_user_self,
      List.getElem?_eq_getElem A.isLt]
    have hA' : wrap_i32 ((l.users[A.val]).2.m_balance_xts + -amount) =
        (l.users[A.val]).2.m_balance_xts + -amount := wrap_i32_of_in_range hA
    simp only [Option.map_some', user.add_funds_unchecked_i32, wrap_i32_of_in_range hneg,
      hA', sub_eq_add_neg]
    rfl
  · simp only [ledger.deref]
    rw [getElem?_with_user_self, getElem?_with_user_ne _ hne,
      List.getElem?_eq_getElem B.isLt]
    have hB' : wrap_i32 ((l.users[B.val]).2.m_balance_xts + amount) =
        (l.users[B.val]).2.m_balance_xts + amount := wrap_i32_of_in_range hB
    simp only [Option.map_some', user.add_funds_unchecked_i32, hB']
    rfl

/-- In a reachable ledger of `n` accounts with `100 * n ≤ INT_MAX`, the three
`int` results of a transfer that passes its checks are 32-bit `int`s. -/
theorem transfer_results_in_int_range {l : ledger} (h : reachable l)
    (hbound : 100 * (l.users.length : Int) ≤ INT_MAX) (A B : Fin l.users.length)
    (amount : Int) (comment : String) (hAB : A ≠ B) (hpos : 0 < amount)
    (hle : amount ≤ (l.users[A]).2.m_balance_xts) :
    in_int_range (-amount) ∧
    in_int_range ((l.users[A]).2.m_balance_xts + -amount) ∧
    in_int_range ((l.users[B]).2.m_balance_xts + amount) := by
  simp only [INT_MAX] at hbound
  have hnonneg : ∀ e ∈ l.users, 0 ≤ e.2.m_balance_xts :=
    fun e he => (users_ok_of_reachable h e he).2.2.2
  have hA1 := hnonneg _ (List.getElem_mem A.isLt)
  have hA2 := balance_le_of_reachable h _ (List.getElem_mem A.isLt)
  have hB1 := hnonneg _ (List.getElem_mem B.isLt)
  have hle' : amount ≤ (l.users[A.val]).2.m_balance_xts := hle
  have hreach' : reachable (user.transfer l A B amount comment).2 :=
    .step h (.transfer l A B amount comment)
  have hB' := (deref_after_add_funds l A B amount comment hAB).2
  rw [transfer_ok l A B amount comment hAB hpos hle] at hreach'
  simp only [ledger.deref] at hB'
  cases hget : (with_user (with_user l.users A
      (fun u => u.add_funds_unchecked B (-amount) comment)) B
      (fun u => u.add_funds_unchecked A amount comment))[B.val]? with
  | none => simp [hget] at hB'
  | some e' =>
    simp only [hget, Option.map_some', Option.some.injEq] at hB'
    have hB2 := balance_le_of_reachable hreach' e' (List.mem_iff_getElem?.mpr ⟨B, hget⟩)
    simp only [length_with_user, hB'] at hB2
    have hB2' : (l.users[B.val]).2.m_balance_xts + amount ≤ 100 * (l.users.length : Int) :=
      hB2
    show in_int_range (-amount) ∧
      in_int_range ((l.users[A.val]).2.m_balance_xts + -amount) ∧
      in_int_range ((l.users[B.val]).2.m_balance_xts + amount)
    refine ⟨⟨?_, ?_⟩, ⟨?_, ?_⟩, ⟨?_, ?_⟩⟩ <;> simp only [INT_MIN, INT_MAX] <;> omega

/-- In a reachable ledger of `n` accounts with `100 * n ≤ INT_MAX` the transfer
at 32 bits and the transfer on mathematical integers are the same call. -/
theorem transfer_i32_eq_transfer {l : ledger} (h : reachable l)
    (hbound : 100 * (l.users.length : Int) ≤ INT_MAX) (A B : Fin l.users.length)
    (amount : Int) (comment : String) :
    user.transfer_i32 l A B amount comment = user.transfer l A B amount comment := by
  rcases transfer_cases l A B amount comment with ⟨err, herr⟩ | ⟨hAB, hpos, hle, hok⟩
  · by_cases hAB : A = B
    · unfold user.transfer_i32 user.transfer
      rw [if_pos hAB, if_pos hAB]
    by_cases hpos : amount ≤ 0
    · unfold user.transfer_i32 user.transfer
      rw [if_neg hAB, if_neg hAB, if_pos hpos, if_pos hpos]
    by_cases hlt : (l.users[A]).2.m_balance_xts < amount
    · unfold user.transfer_i32 user.transfer
      rw [if_neg hAB, if_neg hAB, if_neg hpos, if_neg hpos, if_pos hlt, if_pos hlt]
    · rw [transfer_ok l A B amount comment hAB (not_le.mp hpos) (not_lt.mp hlt)] at herr
      cases herr
  · obtain ⟨h1, h2, h3⟩ :=
      transfer_results_in_int_range h hbound A B amount comment hAB hpos hle
    have hne : (A : Nat) ≠ B := fun hv => hAB (Fin.ext hv)
    rw [hok, transfer_i32_ok l A B amount comment hAB hpos hle]
    congr 2
    apply List.ext_getElem?
    intro r
    rw [getElem?_after_add_funds l.users hne, getElem?_after_add_funds l.users hne]
    cases hr : l.users[r]? with
    | none => rfl
    | some e =>
      simp only [Option.map_some', Option.some.injEq, Prod.mk.injEq, true_and]
      by_cases hrA : r = A
      · have he : e = l.users[A] := by
          rw [hrA, List.getElem?_eq_getElem A.isLt] at hr
          exact (Option.some.inj hr).symm
        subst he
        simp only [if_pos hrA, user.add_funds_unchecked_i32, user.add_funds_unchecked,
          wrap_i32_of_in_range h1, wrap_i32_of_in_range h2]
      · by_cases hrB : r = B
        · have he : e = l.users[B] := by
            rw [hrB, List.getElem?_eq_getElem B.isLt] at hr
            exact (Option.some.inj hr).symm
          subst he
          simp only [if_neg hrA, if_pos hrB, user.add_funds_unchecked_i32,
            user.add_funds_unchecked, wrap_i32_of_in_range h3]
        · simp only [if_neg hrA, if_neg hrB]

theorem length_le_of_step_i32 {l l' : ledger} (hs : step_i32 l l') :
    l.users.length ≤ l'.users.length := by
  cases hs with
  | get_or_create_user name =>
    unfold ledger.get_or_create_user
    split
    · simp
    · exact le_refl _
  | transfer A B amount comment =>
    rcases transfer_i32_cases l A B amount comment with ⟨err, herr⟩ | ⟨_, _, _, hok⟩
    · rw [herr]
    · rw [hok]; simp only [length_with_user]; exact le_refl _

/-- A ledger of `n` accounts with `100 * n ≤ INT_MAX` that is reachable with
the arithmetic at 32 bits is reachable with the arithmetic on mathematical
integers: no step on the way to it overflows. -/
theorem reachable_of_reachable_i32 {l : ledger} (h : reachable_i32 l) :
    100 * (l.users.length : Int) ≤ INT_MAX → reachable l := by
  induction h with
  | empty => intro _; exact .empty
  | @step l l' _ hs ih =>
    intro hbound
    have hlen := length_le_of_step_i32 hs
    have hprev : 100 * (l.users.length : Int) ≤ INT_MAX := by
      have : (l.users.length : Int) ≤ l'.users.length := by exact_mod_cast hlen
      omega
    have hr := ih hprev
    cases hs with
    | get_or_create_user name => exact .step hr (.get_or_create_user l name)
    | transfer A B amount comment =>
      rw [transfer_i32_eq_transfer hr hprev]
      exact .step hr (.transfer l A B amount comment)

/-! ## The ledger `pumped m` -/

theorem client_name_injective {i j : Nat} (h : client_name i = client_name j) : i = j := by
  have := congrArg (fun s => s.data.length) h
  simpa [client_name] using this

theorem reachable_i32_call_run {l : ledger} (h : reachable_i32 l) (c : call) :
    reachable_i32 (call.run_i32 l c) := by
  cases c with
  | get_or_create_user name => exact .step h (.get_or_create_user l name)
  | transfer A B amount comment =>
    by_cases hd : A < l.users.length ∧ B < l.users.length
    · simp only [call.run_i32, dif_pos hd]
      exact .step h (.transfer l ⟨A, hd.1⟩ ⟨B, hd.2⟩ amount comment)
    · simp only [call.run_i32, dif_neg hd]
      exact h

theorem reachable_i32_pumped (m : Nat) : reachable_i32 (pumped m) := by
  induction m with
  | zero => exact reachable_i32_call_run .empty _
  | succ m ih => exact reachable_i32_call_run (reachable_i32_call_run ih _) _

/-- A transfer at 32 bits that passes its checks, as a call. -/
theorem call_run_i32_transfer_ok (l : ledger) (A B : Nat) (amount : Int) (comment : String)
    (eA : String × user) (hA : l.users[A]? = some eA) (hB : B < l.users.length)
    (hAB : A ≠ B) (hpos : 0 < amount) (hle : amount ≤ eA.2.m_balance_xts) :
    call.run_i32 l (.transfer A B amount comment) =
      ⟨with_user
        (with_user l.users A
          (fun u => u.add_funds_unchecked_i32 B (wrap_i32 (-amount)) comment)) B
        (fun u => u.add_funds_unchecked_i32 A amount comment)⟩ := by
  have hA' : A < l.users.length := by
    by_contra hge
    rw [List.getElem?_eq_none (Nat.le_of_not_lt hge)] at hA
    cases hA
  have hget : l.users[A] = eA := by
    rw [List.getElem?_eq_getElem hA'] at hA
    exact Option.some.inj hA
  simp only [call.run_i32, dif_pos (And.intro hA' hB)]
  rw [transfer_i32_ok l ⟨A, hA'⟩ ⟨B, hB⟩ amount comment
    (fun hv => hAB (congrArg Fin.val hv)) hpos (by show amount ≤ (l.users[A]).2.m_balance_xts
                                                   rw [hget]; exact hle)]

/-- The ledger `pumped m` has `m + 1` accounts, named `client_name 0` to
`client_name m`; the log of client `0` has the deltas `100 * (m + 1)` in sum,
and its balance is that sum as a 32-bit `int`. -/
theorem pumped_spec (m : Nat) :
    (pumped m).users.length = m + 1 ∧
    (∀ k ∈ (pumped m).users.map Prod.fst, ∃ i, i ≤ m ∧ k = client_name i) ∧
    ∃ e : String × user, (pumped m).users[0]? = some e ∧
      e.2.m_balance_xts = wrap_i32 (100 * ((m : Int) + 1)) ∧
      sum_deltas e.2.m_transactions = 100 * ((m : Int) + 1) := by
  induction m with
  | zero =>
    refine ⟨rfl, ?_, (client_name 0, user.new (client_name 0)), rfl, by decide, by decide⟩
    intro k hk
    exact ⟨0, le_refl _, by simpa [pumped, call.run_i32, ledger.get_or_create_user,
      find_user] using hk⟩
  | succ m ih =>
    obtain ⟨hlen, hkeys, e, he0, hbal, hsum⟩ := ih
    have hfind : find_user (pumped m).users (client_name (m + 1)) = none := by
      rw [find_user_eq_none]
      intro e' he' hname
      obtain ⟨i, hi, hk⟩ := hkeys e'.1 (List.mem_map.mpr ⟨e', he', rfl⟩)
      have := client_name_injective (hk.symm.trans hname)
      omega
    have hl1 : call.run_i32 (pumped m) (.get_or_create_user (client_name (m + 1))) =
        ⟨(pumped m).users ++ [(client_name (m + 1), user.new (client_name (m + 1)))]⟩ := by
      simp only [call.run_i32, ledger.get_or_create_user, hfind]
    have hne : m + 1 ≠ 0 := Nat.succ_ne_zero m
    have hnew : ((pumped m).users ++
        [(client_name (m + 1), user.new (client_name (m + 1)))])[m + 1]? =
        some (client_name (m + 1), user.new (client_name (m + 1))) := by
      rw [List.getElem?_append_right (by omega), hlen]
      simp
    have hstep : pumped (m + 1) =
        ⟨with_user
          (with_user ((pumped m).users ++
              [(client_name (m + 1), user.new (client_name (m + 1)))]) (m + 1)
            (fun u => u.add_funds_unchecked_i32 0 (wrap_i32 (-100)) "pump")) 0
          (fun u => u.add_funds_unchecked_i32 (m + 1) 100 "pump")⟩ := by
      show call.run_i32 (call.run_i32 (pumped m) _) _ = _
      rw [hl1]
      exact call_run_i32_transfer_ok _ (m + 1) 0 100 "pump" _ hnew
        (by simp only [List.length_append, List.length_singleton]; omega) hne (by decide)
        (le_refl (100 : Int))
    rw [hstep]
    refine ⟨?_, ?_, ?_⟩
    · simp only [length_with_user, List.length_append, List.length_singleton, hlen]
    · intro k hk
      simp only [map_fst_with_user, List.map_append, List.map_cons, List.map_nil,
        List.mem_append, List.mem_singleton] at hk
      rcases hk with hk | rfl
      · obtain ⟨i, hi, hk'⟩ := hkeys k hk
        exact ⟨i, by omega, hk'⟩
      · exact ⟨m + 1, le_refl _, rfl⟩
    · have hget := getElem?_after_add_funds
        ((pumped m).users ++ [(client_name (m + 1), user.new (client_name (m + 1)))]) hne
        (fun u => u.add_funds_unchecked_i32 0 (wrap_i32 (-100)) "pump")
        (fun u => u.add_funds_unchecked_i32 (m + 1) 100 "pump") 0
      rw [List.getElem?_append_left (by omega), he0] at hget
      refine ⟨_, hget, ?_, ?_⟩
      · simp only [if_neg (Ne.symm hne), if_true, user.add_funds_unchecked_i32, hbal,
          wrap_i32_add_wrap_i32]
        have hc : (100 : Int) * ((m : Int) + 1) + 100 = 100 * (((m + 1 : Nat) : Int) + 1) := by
          push_cast
          ring
        rw [hc]
      · simp only [if_neg (Ne.symm hne), if_true, user.add_funds_unchecked_i32, sum_deltas,
          List.map_append, List.sum_append, List.map_cons, List.map_nil, List.sum_cons,
          List.sum_nil] at hsum ⊢
        rw [hsum]
        push_cast
        ring

theorem reachable_i32_alice_bob : reachable_i32 alice_bob :=
  .step (.step .empty (.get_or_create_user ⟨[]⟩ "alice"))
    (.get_or_create_user ⟨[("alice", user.new "alice")]⟩ "bob")

theorem reachable_i32_after_lunch_i32 : reachable_i32 after_lunch_i32 :=
  .step reachable_i32_alice_bob
    (.transfer alice_bob ⟨0, by decide⟩ ⟨1, by decide⟩ 30 "lunch")

/-- The ledger `pumped 21474836` has `21474837` accounts; the deltas of the log
of client `0` sum to `2147483700`, which is more than `INT_MAX`, and its
balance is `-2147483596`. -/
theorem pumped_overflow :
    (pumped 21474836).users.length = 21474837 ∧
    ∃ e : String × user, (pumped 21474836).users[0]? = some e ∧
      e.2.m_balance_xts = -2147483596 ∧
      sum_deltas e.2.m_transactions = 2147483700 := by
  obtain ⟨hlen, _, e, he, hbal, hsum⟩ := pumped_spec 21474836
  refine ⟨hlen, e, he, ?_, ?_⟩
  · rw [hbal]
    simp only [wrap_i32]
    norm_num
  · rw [hsum]
    norm_num

/-- C1, as stated, fails when the credit overflows: in the ledger of `alice`
with `100` XTS and `bob` with `2147483647` XTS, both balances 32-bit `int`s,
`alice.transfer(bob, 1, "x")` is between distinct accounts with
`0 < 1 ≤ alice.balance` and returns normally, but the balance of `bob`
afterwards is `-2147483648`, not `2147483647 + 1`. -/
theorem transfer_overflows_destination :
    (⟨0, by decide⟩ : Fin alice_rich_bob.users.length) ≠ ⟨1, by decide⟩ ∧
    (0 : Int) < 1 ∧
    (1 : Int) ≤
      (alice_rich_bob.users[(⟨0, by decide⟩ : Fin alice_rich_bob.users.length)]).2.balance_xts ∧
    (∀ e ∈ alice_rich_bob.users, in_int_range e.2.m_balance_xts) ∧
    (user.transfer_i32 alice_rich_bob ⟨0, by decide⟩ ⟨1, by decide⟩ 1 "x").1 = .ok () ∧
    ((user.transfer_i32 alice_rich_bob ⟨0, by decide⟩ ⟨1, by decide⟩ 1 "x").2.deref 1).map
      user.balance_xts = some (-2147483648) ∧
    (-2147483648 : Int) ≠ 2147483647 + 1 :=
  ⟨by decide, by decide, by decide, by decide, rfl, by decide, by decide⟩

/-- C1, amended: for every ledger, every two distinct accounts `A` and `B` whose
balances are 32-bit `int`s, every amount with `0 < amount ≤ A.balance` and
`B.balance + amount ≤ INT_MAX`, and every comment, `A.transfer(B, amount,
comment)`, computed at 32 bits, returns normally, and afterwards `A` is the old
`A` with its balance decreased by `amount` and `(B, -amount, comment)` appended
to its log, and `B` is the old `B` with its balance increased by `amount` and
`(A, +amount, comment)` appended to its log. -/
theorem transfer_success (l : ledger) (A B : Fin l.users.length) (amount : Int)
    (comment : String) (hAB : A ≠ B) (hpos : 0 < amount)
    (hle : amount ≤ (l.users[A]).2.balance_xts)
    (hA : in_int_range (l.users[A]).2.balance_xts)
    (hB : in_int_range (l.users[B]).2.balance_xts)
    (hfit : (l.users[B]).2.balance_xts + amount ≤ INT_MAX) :
    ∃ l' : ledger, user.transfer_i32 l A B amount comment = (.ok (), l') ∧
      l'.deref A = some
        { (l.users[A]).2 with
          m_balance_xts := (l.users[A]).2.m_balance_xts - amount
          m_transactions :=
            (l.users[A]).2.m_transactions ++ [⟨some B, -amount, comment⟩] } ∧
      l'.deref B = some
        { (l.users[B]).2 with
          m_balance_xts := (l.users[B]).2.m_balance_xts + amount
          m_transactions :=
            (l.users[B]).2.m_transactions ++ [⟨some A, amount, comment⟩] } := by
  have hle' : amount ≤ (l.users[A.val]).2.m_balance_xts := hle
  have hA' : in_int_range (l.users[A.val]).2.m_balance_xts := hA
  have hB' : in_int_range (l.users[B.val]).2.m_balance_xts := hB
  have hfit' : (l.users[B.val]).2.m_balance_xts + amount ≤ INT_MAX := hfit
  simp only [in_int_range, INT_MIN, INT_MAX] at hA' hB' hfit'
  have h1 : in_int_range (-amount) := by
    constructor <;> simp only [INT_MIN, INT_MAX] <;> omega
  have h2 : in_int_range ((l.users[A]).2.m_balance_xts + -amount) := by
    show in_int_range ((l.users[A.val]).2.m_balance_xts + -amount)
    constructor <;> simp only [INT_MIN, INT_MAX] <;> omega
  have h3 : in_int_range ((l.users[B]).2.m_balance_xts + amount) := by
    show in_int_range ((l.users[B.val]).2.m_balance_xts + amount)
    constructor <;> simp only [INT_MIN, INT_MAX] <;> omega
  exact ⟨_, transfer_i32_ok l A B amount comment hAB hpos hle,
    deref_after_add_funds_i32 l A B amount comment hAB h1 h2 h3⟩

/-- Witness of the amended C1: `alice.transfer(bob, 30, "lunch")` on two fresh
accounts. -/
theorem transfer_success_witness :
    ((⟨0, by decide⟩ : Fin alice_bob.users.length) ≠ ⟨1, by decide⟩ ∧
      (0 : Int) < 30 ∧
      (30 : Int) ≤
        (alice_bob.users[(⟨0, by decide⟩ : Fin alice_bob.users.length)]).2.balance_xts ∧
      in_int_range
        (alice_bob.users[(⟨0, by decide⟩ : Fin alice_bob.users.length)]).2.balance_xts ∧
      in_int_range
        (alice_bob.users[(⟨1, by decide⟩ : Fin alice_bob.users.length)]).2.balance_xts ∧
      (alice_bob.users[(⟨1, by decide⟩ : Fin alice_bob.users.length)]).2.balance_xts + 30 ≤
        INT_MAX) ∧
    ∃ l' : ledger,
      user.transfer_i32 alice_bob ⟨0, by decide⟩ ⟨1, by decide⟩ 30 "lunch" = (.ok (), l') ∧
      l'.deref 0 = some
        { m_name := "alice", m_balance_xts := 100 - 30,
          m_transactions :=
            [⟨none, 100, "Initial deposit for alice"⟩] ++ [⟨some 1, -30, "lunch"⟩] } ∧
      l'.deref 1 = some
        { m_name := "bob", m_balance_xts := 100 + 30,
          m_transactions :=
            [⟨none, 100, "Initial deposit for bob"⟩] ++ [⟨some 0, 30, "lunch"⟩] } :=
  ⟨⟨by decide, by decide, by decide, by decide, by decide, by decide⟩,
    transfer_success alice_bob ⟨0, by decide⟩ ⟨1, by decide⟩ 30 "lunch"
      (by decide) (by decide) (by decide) (by decide) (by decide) (by decide)⟩

/-- C2, as stated, fails once a balance overflows: the ledger `pumped 21474836`
is reachable by calls of `get_or_create_user` and `transfer` (`21474837`
clients are created and all but client `0` transfer their `100` XTS to client
`0`); the deltas of the log of client `0` sum to `2147483700`, but its 32-bit
balance is `-2147483596`. -/
theorem balance_ne_sum_deltas_after_overflow :
    reachable_i32 (pumped 21474836) ∧
    (pumped 21474836).users.length = 21474837 ∧
    ∃ e ∈ (pumped 21474836).users,
      e.2.balance_xts = -2147483596 ∧
      sum_deltas e.2.m_transactions = 2147483700 ∧
      e.2.balance_xts ≠ sum_deltas e.2.m_transactions := by
  obtain ⟨hlen, e, he, hbal, hsum⟩ := pumped_overflow
  refine ⟨reachable_i32_pumped _, hlen, e, List.mem_iff_getElem?.mpr ⟨0, he⟩, hbal, hsum, ?_⟩
  show e.2.m_balance_xts ≠ _
  rw [hbal, hsum]
  decide

/-- C2, amended: in every ledger of `n` accounts with `100 * n ≤ INT_MAX` that
is reachable from the empty ledger by calls of `get_or_create_user` and
`transfer` (returning or throwing), computed at 32 bits, the balance of every
account equals the sum of the balance deltas of all entries of its transaction
log, the seed deposit included. -/
theorem balance_eq_sum_deltas (l : ledger) (h : reachable_i32 l)
    (hbound : 100 * (l.users.length : Int) ≤ INT_MAX) (e : String × user)
    (he : e ∈ l.users) : e.2.balance_xts = sum_deltas e.2.m_transactions :=
  (users_ok_of_reachable (reachable_of_reachable_i32 h hbound) e he).2.2.1

/-- Witness of the amended C2: `alice` after `alice.transfer(bob, 30,
"lunch")`. -/
theorem balance_eq_sum_deltas_witness :
    (reachable_i32 after_lunch_i32 ∧
      100 * (after_lunch_i32.users.length : Int) ≤ INT_MAX ∧
      (("alice", ⟨"alice", 70, [seed_deposit "alice", ⟨some 1, -30, "lunch"⟩]⟩) :
        String × user) ∈ after_lunch_i32.users) ∧
    (70 : Int) = sum_deltas [seed_deposit "alice", ⟨some 1, -30, "lunch"⟩] :=
  ⟨⟨reachable_i32_after_lunch_i32, by decide, by decide⟩,
    balance_eq_sum_deltas after_lunch_i32 reachable_i32_after_lunch_i32 (by decide)
      ("alice", ⟨"alice", 70, [seed_deposit "alice", ⟨some 1, -30, "lunch"⟩]⟩) (by decide)⟩

/-- C3, as stated, fails on a freshly created account: the ledger holding only
`alice` is reachable, her balance is `100`, and `100` plus the sum of the deltas
of her full log (the seed deposit of `+100`) is `200`. -/
theorem balance_ne_100_plus_sum_deltas :
    reachable ⟨[("alice", user.new "alice")]⟩ ∧
    (("alice", user.new "alice") : String × user) ∈
      (⟨[("alice", user.new "alice")]⟩ : ledger).users ∧
    (user.new "alice").balance_xts = 100 ∧
    100 + sum_deltas (user.new "alice").m_transactions = 200 ∧
    (user.new "alice").balance_xts ≠ 100 + sum_deltas (user.new "alice").m_transactions ∧
    reachable_i32 ⟨[("alice", user.new "alice")]⟩ ∧
    100 * ((⟨[("alice", user.new "alice")]⟩ : ledger).users.length : Int) ≤ INT_MAX :=
  ⟨.step .empty (.get_or_create_user ⟨[]⟩ "alice"), by decide, by decide, by decide,
    by decide, .step .empty (.get_or_create_user ⟨[]⟩ "alice"), by decide⟩

/-- C3, amended: in every ledger of `n` accounts with `100 * n ≤ INT_MAX` that
is reachable, computed at 32 bits, the first entry of the log of every account
is its seed deposit `(none, +100, "Initial deposit for <name>")`, and the
balance equals `100` plus the sum of the deltas of the entries after that first
entry. -/
theorem balance_eq_100_plus_sum_after_seed (l : ledger) (h : reachable_i32 l)
    (hbound : 100 * (l.users.length : Int) ≤ INT_MAX)
    (e : String × user) (he : e ∈ l.users) :
    e.2.m_transactions.head? = some (seed_deposit e.1) ∧
    e.2.balance_xts = 100 + sum_deltas e.2.m_transactions.tail := by
  obtain ⟨_, ⟨rest, hrest⟩, hsum, _⟩ :=
    users_ok_of_reachable (reachable_of_reachable_i32 h hbound) e he
  refine ⟨by rw [hrest]; rfl, ?_⟩
  show e.2.m_balance_xts = _
  rw [hsum, hrest]
  simp [sum_deltas, seed_deposit, INITIAL_BALANCE]

/-- Witness of the amended C3: `bob` after `alice.transfer(bob, 30, "lunch")`. -/
theorem balance_eq_100_plus_sum_after_seed_witness :
    (reachable_i32 after_lunch_i32 ∧
      100 * (after_lunch_i32.users.length : Int) ≤ INT_MAX ∧
      (("bob", ⟨"bob", 130, [seed_deposit "bob", ⟨some 0, 30, "lunch"⟩]⟩) :
        String × user) ∈ after_lunch_i32.users) ∧
    [seed_deposit "bob", (⟨some 0, 30, "lunch"⟩ : transaction)].head? =
      some (seed_deposit "bob") ∧
    (130 : Int) = 100 + sum_deltas [(⟨some 0, 30, "lunch"⟩ : transaction)] :=
  ⟨⟨reachable_i32_after_lunch_i32, by decide, by decide⟩,
    balance_eq_100_plus_sum_after_seed after_lunch_i32 reachable_i32_after_lunch_i32
      (by decide)
      ("bob", ⟨"bob", 130, [seed_deposit "bob", ⟨some 0, 30, "lunch"⟩]⟩) (by decide)⟩

/-- C4, as stated, fails when the credit overflows: in the ledger of `alice`
with `100` XTS and `bob` with `2147483647` XTS the two balances sum to
`2147483747`; after `alice.transfer(bob, 1, "x")`, which returns normally, they
are `99` and `-2147483648` and sum to `-2147483549`. -/
theorem transfer_breaks_pair_sum :
    (alice_rich_bob.deref 0).map user.balance_xts = some 100 ∧
    (alice_rich_bob.deref 1).map user.balance_xts = some 2147483647 ∧
    (user.transfer_i32 alice_rich_bob ⟨0, by decide⟩ ⟨1, by decide⟩ 1 "x").1 = .ok () ∧
    ((user.transfer_i32 alice_rich_bob ⟨0, by decide⟩ ⟨1, by decide⟩ 1 "x").2.deref 0).map
      user.balance_xts = some 99 ∧
    ((user.transfer_i32 alice_rich_bob ⟨0, by decide⟩ ⟨1, by decide⟩ 1 "x").2.deref 1).map
      user.balance_xts = some (-2147483648) ∧
    (99 : Int) + -2147483648 ≠ 100 + 2147483647 :=
  ⟨by decide, by decide, rfl, by decide, by decide, by decide⟩

/-- C4, amended: for any two accounts `A` and `B` of a ledger whose balances
are 32-bit `int`s, any amount and any comment such that `B.balance + amount ≤
INT_MAX` in case the call returns normally, whatever `A.transfer(B, amount,
comment)`, computed at 32 bits, does (return or throw), the sum of the balances
of `A` and `B` after the call equals their sum before the call. -/
theorem transfer_conserves_pair (l : ledger) (A B : Fin l.users.length) (amount : Int)
    (comment : String)
    (hA : in_int_range (l.users[A]).2.balance_xts)
    (hB : in_int_range (l.users[B]).2.balance_xts)
    (hfit : (user.transfer_i32 l A B amount comment).1 = .ok () →
      (l.users[B]).2.balance_xts + amount ≤ INT_MAX) :
    ∃ a' b' : user,
      (user.transfer_i32 l A B amount comment).2.deref A = some a' ∧
      (user.transfer_i32 l A B amount comment).2.deref B = some b' ∧
      a'.balance_xts + b'.balance_xts =
        (l.users[A]).2.balance_xts + (l.users[B]).2.balance_xts := by
  rcases transfer_i32_cases l A B amount comment with ⟨err, herr⟩ | ⟨hAB, hpos, hle, hok⟩
  · rw [herr]
    exact ⟨(l.users[A]).2, (l.users[B]).2,
      by simp [ledger.deref, List.getElem?_eq_getElem A.isLt],
      by simp [ledger.deref, List.getElem?_eq_getElem B.isLt], rfl⟩
  · have hfit' : (l.users[B.val]).2.m_balance_xts + amount ≤ INT_MAX :=
      hfit (by rw [hok])
    have hle' : amount ≤ (l.users[A.val]).2.m_balance_xts := hle
    have hA' : in_int_range (l.users[A.val]).2.m_balance_xts := hA
    have hB' : in_int_range (l.users[B.val]).2.m_balance_xts := hB
    simp only [in_int_range, INT_MIN, INT_MAX] at hA' hB' hfit'
    have h1 : in_int_range (-amount) := by
      constructor <;> simp only [INT_MIN, INT_MAX] <;> omega
    have h2 : in_int_range ((l.users[A]).2.m_balance_xts + -amount) := by
      show in_int_range ((l.users[A.val]).2.m_balance_xts + -amount)
      constructor <;> simp only [INT_MIN, INT_MAX] <;> omega
    have h3 : in_int_range ((l.users[B]).2.m_balance_xts + amount) := by
      show in_int_range ((l.users[B.val]).2.m_balance_xts + amount)
      constructor <;> simp only [INT_MIN, INT_MAX] <;> omega
    obtain ⟨hdA, hdB⟩ := deref_after_add_funds_i32 l A B amount comment hAB h1 h2 h3
    rw [hok]
    exact ⟨_, _, hdA, hdB, by simp only [user.balance_xts]; omega⟩

/-- Witness of the amended C4: `alice.transfer(bob, 30, "lunch")` on two fresh
accounts. -/
theorem transfer_conserves_pair_witness :
    (in_int_range
        (alice_bob.users[(⟨0, by decide⟩ : Fin alice_bob.users.length)]).2.balance_xts ∧
      in_int_range
        (alice_bob.users[(⟨1, by decide⟩ : Fin alice_bob.users.length)]).2.balance_xts ∧
      (alice_bob.users[(⟨1, by decide⟩ : Fin alice_bob.users.length)]).2.balance_xts + 30 ≤
        INT_MAX) ∧
    ∃ a' b' : user,
      (user.transfer_i32 alice_bob ⟨0, by decide⟩ ⟨1, by decide⟩ 30 "lunch").2.deref
        (0 : Nat) = some a' ∧
      (user.transfer_i32 alice_bob ⟨0, by decide⟩ ⟨1, by decide⟩ 30 "lunch").2.deref
        (1 : Nat) = some b' ∧
      a'.balance_xts + b'.balance_xts = 100 + 100 :=
  ⟨⟨by decide, by decide, by decide⟩,
    transfer_conserves_pair alice_bob ⟨0, by decide⟩ ⟨1, by decide⟩ 30 "lunch"
      (by decide) (by decide) (fun _ => by decide)⟩

/-- C5: for every account `A`, every amount and every comment,
`A.transfer(A, amount, comment)` throws `self_transfer_error` (with the text
"Transfer to yourself"), and the ledger (the balance and log of `A` and of every
other account) is unchanged. -/
theorem self_transfer_fails (l : ledger) (A : Fin l.users.length) (amount : Int)
    (comment : String) :
    user.transfer l A A amount comment =
      (.error (.self_transfer "Transfer to yourself"), l) := by
  unfold user.transfer
  rw [if_pos rfl]
  rfl

/-- C6: for every two distinct accounts `A` and `B`, every amount `≤ 0` and
every comment, `A.transfer(B, amount, comment)` throws
`nonpositive_amount_transfer_error`, whatever the balance of `A`, and the ledger
is unchanged. -/
theorem nonpositive_transfer_fails (l : ledger) (A B : Fin l.users.length)
    (amount : Int) (comment : String) (hAB : A ≠ B) (hamount : amount ≤ 0) :
    user.transfer l A B amount comment =
      (.error (.nonpositive_amount "Transfer of non-positive amount"), l) := by
  unfold user.transfer
  rw [if_neg hAB, if_pos hamount]
  rfl

/-- Witness of C6: `alice.transfer(bob, -5, "x")` on two fresh accounts. -/
theorem nonpositive_transfer_fails_witness :
    ((⟨0, by decide⟩ : Fin alice_bob.users.length) ≠ ⟨1, by decide⟩ ∧ (-5 : Int) ≤ 0) ∧
    user.transfer alice_bob ⟨0, by decide⟩ ⟨1, by decide⟩ (-5) "x" =
      (.error (.nonpositive_amount "Transfer of non-positive amount"), alice_bob) :=
  ⟨⟨by decide, by decide⟩,
    nonpositive_transfer_fails alice_bob ⟨0, by decide⟩ ⟨1, by decide⟩ (-5) "x"
      (by decide) (by decide)⟩

/-- C8: for every ledger and every name that is the key of none of its
entries, `get_or_create_user(name)` returns a reference to a new account (one
past the existing ones) whose name is `name`, whose balance is `100` and whose
log is the single entry `(none, +100, "Initial deposit for " ++ name)`; the new
ledger is the old one with that account added under the key `name`, so a lookup
of `name` finds it, and every account that existed before is unchanged. -/
theorem get_or_create_user_new (l : ledger) (name : String)
    (hnew : ∀ e ∈ l.users, e.1 ≠ name) :
    (l.get_or_create_user name).1 = l.users.length ∧
    (l.get_or_create_user name).2.users =
      l.users ++ [(name, ⟨name, 100, [⟨none, 100, "Initial deposit for " ++ name⟩]⟩)] ∧
    (l.get_or_create_user name).2.deref (l.get_or_create_user name).1 =
      some ⟨name, 100, [⟨none, 100, "Initial deposit for " ++ name⟩]⟩ ∧
    find_user (l.get_or_create_user name).2.users name =
      some (l.get_or_create_user name).1 ∧
    ∀ p, p < l.users.length → (l.get_or_create_user name).2.users[p]? = l.users[p]? := by
  have hcall : l.get_or_create_user name =
      (l.users.length, ⟨l.users ++ [(name, user.new name)]⟩) := by
    unfold ledger.get_or_create_user
    rw [find_user_eq_none.mpr hnew]
  rw [hcall]
  refine ⟨rfl, rfl, ?_, find_user_append_new _ hnew, ?_⟩
  · simp [ledger.deref, user.new, INITIAL_BALANCE]
  · intro p hp
    exact List.getElem?_append_left hp

/-- Witness of C8: creating `carol` in the ledger of `alice` and `bob`. -/
theorem get_or_create_user_new_witness :
    (∀ e ∈ alice_bob.users, e.1 ≠ "carol") ∧
    (alice_bob.get_or_create_user "carol").1 = 2 ∧
    (alice_bob.get_or_create_user "carol").2.users =
      alice_bob.users ++
        [("carol", ⟨"carol", 100, [⟨none, 100, "Initial deposit for carol"⟩]⟩)] ∧
    (alice_bob.get_or_create_user "carol").2.deref (alice_bob.get_or_create_user "carol").1 =
      some ⟨"carol", 100, [⟨none, 100, "Initial deposit for carol"⟩]⟩ ∧
    find_user (alice_bob.get_or_create_user "carol").2.users "carol" =
      some (alice_bob.get_or_create_user "carol").1 ∧
    ∀ p, p < alice_bob.users.length →
      (alice_bob.get_or_create_user "carol").2.users[p]? = alice_bob.users[p]? :=
  ⟨by decide, get_or_create_user_new alice_bob "carol" (by decide)⟩

/-- C9: `get_or_create_user` is idempotent per name.  A lookup of a name that
is already a key returns the existing account under that key and leaves the
ledger unchanged; a second call with the same name returns the same reference
as the first and leaves the ledger as the first call left it; and in every
reachable ledger no two entries have the same key, nor the same user name. -/
theorem get_or_create_user_idempotent (l : ledger) (name : String) :
    ((∃ e ∈ l.users, e.1 = name) →
      ∃ p e, l.get_or_create_user name = (p, l) ∧ l.users[p]? = some e ∧ e.1 = name) ∧
    (l.get_or_create_user name).2.get_or_create_user name = l.get_or_create_user name ∧
    (reachable l →
      (l.users.map Prod.fst).Nodup ∧ (l.users.map (fun e => e.2.name)).Nodup) := by
  refine ⟨?_, ?_, ?_⟩
  · rintro ⟨e, he, hname⟩
    cases hfind : find_user l.users name with
    | none => exact absurd hname (find_user_eq_none.mp hfind e he)
    | some p =>
      obtain ⟨e', he', hname'⟩ := find_user_eq_some hfind
      refine ⟨p, e', ?_, he', hname'⟩
      unfold ledger.get_or_create_user
      rw [hfind]
  · cases hfind : find_user l.users name with
    | none =>
      have hcall : l.get_or_create_user name =
          (l.users.length, ⟨l.users ++ [(name, user.new name)]⟩) := by
        unfold ledger.get_or_create_user
        rw [hfind]
      rw [hcall]
      unfold ledger.get_or_create_user
      rw [find_user_append_new _ (find_user_eq_none.mp hfind)]
    | some p =>
      have hcall : l.get_or_create_user name = (p, l) := by
        unfold ledger.get_or_create_user
        rw [hfind]
      rw [hcall]
      exact hcall
  · intro h
    have hkeys := keys_nodup_of_reachable h
    exact ⟨hkeys, by rw [map_name_eq_map_fst (users_ok_of_reachable h)]; exact hkeys⟩

/-- Witness of C9: looking up `alice` after `alice.transfer(bob, 30, "lunch")`. -/
theorem get_or_create_user_idempotent_witness :
    ((∃ e ∈ after_lunch.users, e.1 = "alice") ∧ reachable after_lunch) ∧
    (∃ p e, after_lunch.get_or_create_user "alice" = (p, after_lunch) ∧
      after_lunch.users[p]? = some e ∧ e.1 = "alice") ∧
    (after_lunch.get_or_create_user "alice").2.get_or_create_user "alice" =
      after_lunch.get_or_create_user "alice" ∧
    (after_lunch.users.map Prod.fst).Nodup ∧
    (after_lunch.users.map (fun e => e.2.name)).Nodup :=
  ⟨⟨by decide, reachable_after_lunch⟩,
    (get_or_create_user_idempotent after_lunch "alice").1 (by decide),
    (get_or_create_user_idempotent after_lunch "alice").2.1,
    (get_or_create_user_idempotent after_lunch "alice").2.2 reachable_after_lunch⟩

/-- C10: for every iterator with position `p` on an account whose log has
length `L`: if `p < L`, `wait_next_transaction` returns entry `p` of the log and
the position becomes `p + 1`; as long as every state of the account it reads has
`p ≥ L`, it does not return and the position stays `p`.  Over any sequence of
calls, between which the log of the account only grows by appending (every log
read is a prefix of `full`), the position is the initial position plus the
number of calls that returned, and the entries returned are, in order, the
entries of the log at consecutive positions from the initial position on: none
is returned twice and none is skipped. -/
theorem wait_next_transaction_advances (it : user_transactions_iterator) :
    (∀ (u : user) (obs : List user) (h : it.pos < u.m_transactions.length),
      it.wait_next_transaction (u :: obs) =
        (some (u.m_transactions.get ⟨it.pos, h⟩), ⟨it.m_user, it.pos + 1⟩)) ∧
    (∀ obs : List user, (∀ u ∈ obs, it.pos ≥ u.m_transactions.length) →
      it.wait_next_transaction obs = (none, it)) ∧
    (∀ (full : List transaction) (oss : List (List user)),
      (∀ obs ∈ oss, ∀ u ∈ obs, u.m_transactions <+: full) →
      (it.waits oss).2.m_user = it.m_user ∧
      (it.waits oss).2.pos = it.pos + (it.waits oss).1.reduceOption.length ∧
      (it.waits oss).1.reduceOption =
        (full.drop it.pos).take (it.waits oss).1.reduceOption.length) := by
  refine ⟨?_, ?_, fun full oss h => waits_growing_log full oss it h⟩
  · intro u obs h
    unfold user_transactions_iterator.wait_next_transaction
    rw [dif_neg (Nat.not_le.mpr h)]
  · intro obs
    induction obs with
    | nil => intro _; rfl
    | cons u obs ih =>
      intro h
      unfold user_transactions_iterator.wait_next_transaction
      rw [dif_pos (h u (List.mem_cons_self _ _))]
      exact ih (fun v hv => h v (List.mem_cons_of_mem _ hv))

/-- Witness of C10: an iterator on `bob` at position `1` after
`alice.transfer(bob, 30, "lunch")`: the first call returns `(alice, +30, "lunch")`
and moves to position `2`, where a second call blocks. -/
theorem wait_next_transaction_advances_witness :
    ((1 : Nat) < bob_after_lunch.m_transactions.length ∧
      (∀ u ∈ [bob_after_lunch, bob_after_lunch], (2 : Nat) ≥ u.m_transactions.length) ∧
      (∀ obs ∈ [[bob_after_lunch], [bob_after_lunch, bob_after_lunch]],
        ∀ u ∈ obs, u.m_transactions <+: bob_after_lunch.m_transactions)) ∧
    (user_transactions_iterator.mk 1 1).wait_next_transaction [bob_after_lunch] =
      (some ⟨some 0, 30, "lunch"⟩, ⟨1, 2⟩) ∧
    (user_transactions_iterator.mk 1 2).wait_next_transaction
        [bob_after_lunch, bob_after_lunch] = (none, ⟨1, 2⟩) ∧
    ((user_transactions_iterator.mk 1 1).waits
        [[bob_after_lunch], [bob_after_lunch, bob_after_lunch]]).2.pos = 1 + 1 ∧
    ((user_transactions_iterator.mk 1 1).waits
        [[bob_after_lunch], [bob_after_lunch, bob_after_lunch]]).1.reduceOption =
      [⟨some 0, 30, "lunch"⟩] :=
  ⟨⟨by decide, by decide, by simp⟩,
    (wait_next_transaction_advances ⟨1, 1⟩).1 bob_after_lunch [] (by decide),
    (wait_next_transaction_advances ⟨1, 2⟩).2.1 [bob_after_lunch, bob_after_lunch]
      (by decide),
    ((wait_next_transaction_advances ⟨1, 1⟩).2.2 bob_after_lunch.m_transactions
      [[bob_after_lunch], [bob_after_lunch, bob_after_lunch]] (by simp)).2.1,
    ((wait_next_transaction_advances ⟨1, 1⟩).2.2 bob_after_lunch.m_transactions
      [[bob_after_lunch], [bob_after_lunch, bob_after_lunch]] (by simp)).2.2⟩

/-- C12: for every account, `snapshot_transactions(callback)` calls the callback
exactly once, with the full current log and the current balance of the account
(a callback that records its arguments ends up with exactly that one record),
leaves the ledger, and so the balance and the log, as they were, and returns an
iterator bound to the account whose position is the length of that log;
`monitor()` leaves the ledger as it was too and returns the same iterator as
`snapshot_transactions` with a callback that does nothing. -/
theorem snapshot_transactions_spec {σ : Type} (l : ledger) (A : Fin l.users.length)
    (callback : List transaction → Int → σ → σ) (s : σ) :
    user.snapshot_transactions l A callback s =
      ((⟨A, (l.users[A]).2.m_transactions.length⟩,
        callback (l.users[A]).2.m_transactions (l.users[A]).2.balance_xts s), l) ∧
    (user.snapshot_transactions l A
        (fun log balance (record : List (List transaction × Int)) =>
          record ++ [(log, balance)]) []).1.2 =
      [((l.users[A]).2.m_transactions, (l.users[A]).2.balance_xts)] ∧
    user.monitor l A = (⟨A, (l.users[A]).2.m_transactions.length⟩, l) ∧
    (user.monitor l A).1 = (user.snapshot_transactions l A (fun _ _ s' => s') s).1.1 ∧
    (user.monitor l A).2 = (user.snapshot_transactions l A (fun _ _ s' => s') s).2 :=
  ⟨rfl, rfl, rfl, rfl, rfl⟩

/-- C13: the log of every account is append-only.  For every account that
exists before the call, after `get_or_create_user`, after `transfer` (returning
or throwing) and after any sequence of such calls the account is still at its
position under its key and its old log is a beginning of its new log;
`snapshot_transactions` and `monitor` leave the ledger as it is (`balance_xts`
and `wait_next_transaction` take account states and return none).  In a
reachable ledger the first entry of the log of an account is its seed deposit,
and it stays the first entry after any sequence of calls. -/
theorem log_append_only (l : ledger) (r : Nat) (e : String × user)
    (he : l.users[r]? = some e) :
    (∀ name : String, ∃ u' : user,
      (l.get_or_create_user name).2.users[r]? = some (e.1, u') ∧
      e.2.m_transactions <+: u'.m_transactions) ∧
    (∀ (A B : Fin l.users.length) (amount : Int) (comment : String), ∃ u' : user,
      (user.transfer l A B amount comment).2.users[r]? = some (e.1, u') ∧
      e.2.m_transactions <+: u'.m_transactions) ∧
    (∀ (σ : Type) (A : Fin l.users.length) (callback : List transaction → Int → σ → σ)
      (s : σ), (user.snapshot_transactions l A callback s).2 = l) ∧
    (∀ A : Fin l.users.length, (user.monitor l A).2 = l) ∧
    (∀ calls : List call, ∃ u' : user,
      (run l calls).users[r]? = some (e.1, u') ∧
      e.2.m_transactions <+: u'.m_transactions) ∧
    (reachable l →
      e.2.m_transactions.head? = some (seed_deposit e.1) ∧
      ∀ calls : List call, ∃ u' : user,
        (run l calls).users[r]? = some (e.1, u') ∧
        u'.m_transactions.head? = some (seed_deposit e.1)) := by
  refine ⟨?_, ?_, fun _ _ _ _ => rfl, fun _ => rfl, ?_, ?_⟩
  · intro name
    obtain ⟨u', h1, _, h3⟩ := call_run_at l (.get_or_create_user name) r e he
    exact ⟨u', h1, ⟨_, h3.symm⟩⟩
  · intro A B amount comment
    obtain ⟨u', h1, _, h3, _⟩ := transfer_at l A B amount comment r e he
    exact ⟨u', h1, ⟨_, h3.symm⟩⟩
  · intro calls
    obtain ⟨u', h1, _, h3⟩ := run_at calls l r e he
    exact ⟨u', h1, ⟨_, h3.symm⟩⟩
  · intro hreach
    obtain ⟨_, ⟨rest, hrest⟩, _, _⟩ :=
      users_ok_of_reachable hreach e (List.mem_iff_getElem?.mpr ⟨r, he⟩)
    refine ⟨by rw [hrest]; rfl, ?_⟩
    intro calls
    obtain ⟨u', h1, _, h3⟩ := run_at calls l r e he
    exact ⟨u', h1, by rw [h3, hrest]; rfl⟩

/-- Witness of C13: `bob` in the ledger after the lunch transfer. -/
theorem log_append_only_witness :
    (after_lunch.users[1]? = some ("bob", bob_after_lunch) ∧ reachable after_lunch) ∧
    (∃ u' : user, (run after_lunch [tip_call]).users[1]? = some ("bob", u') ∧
      bob_after_lunch.m_transactions <+: u'.m_transactions) ∧
    bob_after_lunch.m_transactions.head? = some (seed_deposit "bob") :=
  ⟨⟨by decide, reachable_after_lunch⟩,
    (log_append_only after_lunch 1 ("bob", bob_after_lunch) (by decide)).2.2.2.2.1 [tip_call],
    ((log_append_only after_lunch 1 ("bob", bob_after_lunch) (by decide)).2.2.2.2.2
      reachable_after_lunch).1⟩

/-- C16, as stated, fails once a balance overflows: the ledger
`pumped 21474836` is reachable by calls of `get_or_create_user` and `transfer`
(`21474837` clients are created and all but client `0` transfer their `100` XTS
to client `0`), and in it the 32-bit balance of client `0` is `-2147483596`,
which is negative. -/
theorem balance_negative_after_overflow :
    reachable_i32 (pumped 21474836) ∧
    (pumped 21474836).users.length = 21474837 ∧
    ∃ e ∈ (pumped 21474836).users, e.2.balance_xts = -2147483596 ∧ e.2.balance_xts < 0 := by
  obtain ⟨hlen, e, he, hbal, _⟩ := pumped_overflow
  refine ⟨reachable_i32_pumped _, hlen, e, List.mem_iff_getElem?.mpr ⟨0, he⟩, hbal, ?_⟩
  show e.2.m_balance_xts < 0
  rw [hbal]
  decide

/-- C16, amended: in every ledger of `n` accounts with `100 * n ≤ INT_MAX` that
is reachable from the empty ledger by calls of `get_or_create_user` and
`transfer`, computed at 32 bits, the balance of every account is at least
`0`. -/
theorem balance_nonneg (l : ledger) (h : reachable_i32 l)
    (hbound : 100 * (l.users.length : Int) ≤ INT_MAX) (e : String × user)
    (he : e ∈ l.users) : 0 ≤ e.2.balance_xts :=
  (users_ok_of_reachable (reachable_of_reachable_i32 h hbound) e he).2.2.2

/-- Witness of the amended C16: `alice` after `alice.transfer(bob, 30,
"lunch")`. -/
theorem balance_nonneg_witness :
    (reachable_i32 after_lunch_i32 ∧
      100 * (after_lunch_i32.users.length : Int) ≤ INT_MAX ∧
      (("alice", ⟨"alice", 70, [seed_deposit "alice", ⟨some 1, -30, "lunch"⟩]⟩) :
        String × user) ∈ after_lunch_i32.users) ∧
    (0 : Int) ≤ 70 :=
  ⟨⟨reachable_i32_after_lunch_i32, by decide, by decide⟩,
    balance_nonneg after_lunch_i32 reachable_i32_after_lunch_i32 (by decide)
      ("alice", ⟨"alice", 70, [seed_deposit "alice", ⟨some 1, -30, "lunch"⟩]⟩) (by decide)⟩

/-- C19: for every ledger and every call `A.transfer(B, amount, comment)`,
returning or throwing: every position other than `A` and `B` holds what it held
before, the keys of the ledger and the user names are the same in the same
order, in particular `A` and `B` keep their names, and a call that throws leaves
the whole ledger as it was. -/
theorem transfer_frame (l : ledger) (A B : Fin l.users.length) (amount : Int)
    (comment : String) :
    (∀ r : Nat, r ≠ A → r ≠ B →
      (user.transfer l A B amount comment).2.users[r]? = l.users[r]?) ∧
    (user.transfer l A B amount comment).2.users.map Prod.fst = l.users.map Prod.fst ∧
    (user.transfer l A B amount comment).2.users.map (fun e => e.2.name) =
      l.users.map (fun e => e.2.name) ∧
    ((user.transfer l A B amount comment).2.deref A).map user.name =
      some (l.users[A]).2.name ∧
    ((user.transfer l A B amount comment).2.deref B).map user.name =
      some (l.users[B]).2.name ∧
    (∀ err : transfer_error, (user.transfer l A B amount comment).1 = .error err →
      (user.transfer l A B amount comment).2 = l) := by
  have hmap := map_name_transfer l A B amount comment
  refine ⟨?_, ?_, ?_, ?_, ?_, ?_⟩
  · intro r hA hB
    cases he : l.users[r]? with
    | none =>
      have hr : l.users.length ≤ r := by
        by_contra hlt
        rw [List.getElem?_eq_getElem (Nat.lt_of_not_le hlt)] at he
        cases he
      exact List.getElem?_eq_none (by rw [length_transfer]; exact hr)
    | some e =>
      obtain ⟨u', h1, _, _, h4⟩ := transfer_at l A B amount comment r e he
      rw [h1, h4 hA hB]
  · simpa [List.map_map, Function.comp_def] using congrArg (List.map Prod.fst) hmap
  · simpa [List.map_map, Function.comp_def] using congrArg (List.map Prod.snd) hmap
  · obtain ⟨u', h1, h2, _, _⟩ :=
      transfer_at l A B amount comment A _ (List.getElem?_eq_getElem A.isLt)
    simp [ledger.deref, h1, user.name, h2]
  · obtain ⟨u', h1, h2, _, _⟩ :=
      transfer_at l A B amount comment B _ (List.getElem?_eq_getElem B.isLt)
    simp [ledger.deref, h1, user.name, h2]
  · intro err herr
    rcases transfer_cases l A B amount comment with ⟨err', herr'⟩ | ⟨_, _, _, hok⟩
    · rw [herr']
    · rw [hok] at herr
      cases herr

/-- Witness of C19: `alice.transfer(bob, 30, "lunch")` leaves `carol` at
position `2` as she was, and `alice.transfer(bob, 1000, "too much")` throws and
leaves the ledger as it was. -/
theorem transfer_frame_witness :
    ((2 : Nat) ≠ (⟨0, by decide⟩ : Fin alice_bob_carol.users.length) ∧
      (2 : Nat) ≠ (⟨1, by decide⟩ : Fin alice_bob_carol.users.length) ∧
      (user.transfer alice_bob_carol ⟨0, by decide⟩ ⟨1, by decide⟩ 1000 "too much").1 =
        .error (not_enough_funds_error 100 1000)) ∧
    (user.transfer alice_bob_carol ⟨0, by decide⟩ ⟨1, by decide⟩ 30 "lunch").2.users[2]? =
      some ("carol", user.new "carol") ∧
    (user.transfer alice_bob_carol ⟨0, by decide⟩ ⟨1, by decide⟩ 30 "lunch").2.users.map
      Prod.fst = ["alice", "bob", "carol"] ∧
    (user.transfer alice_bob_carol ⟨0, by decide⟩ ⟨1, by decide⟩ 1000 "too much").2 =
      alice_bob_carol :=
  ⟨⟨by decide, by decide, rfl⟩,
    (transfer_frame alice_bob_carol ⟨0, by decide⟩ ⟨1, by decide⟩ 30 "lunch").1 2
      (by decide) (by decide),
    (transfer_frame alice_bob_carol ⟨0, by decide⟩ ⟨1, by decide⟩ 30 "lunch").2.1,
    (transfer_frame alice_bob_carol ⟨0, by decide⟩ ⟨1, by decide⟩ 1000 "too much").2.2.2.2.2
      (not_enough_funds_error 100 1000) rfl⟩

/-- C18: in every reachable ledger the logs of any two distinct accounts at `p`
and `q` mirror each other: the entries of the log of `p` with counterparty `q`
and the entries of the log of `q` with counterparty `p` are equally many, and
the `i`-th of the one and the `i`-th of the other carry the same comment and
opposite deltas, neither of them `0`; and a successful transfer from `p` to `q`
appends the entry with the negative delta `-amount` to these entries of the
sender `p` and the entry with the positive delta `amount` to those of `q`. -/
theorem logs_mirror (l : ledger) (h : reachable l) (p q : Nat) (ea eb : String × user)
    (hpq : p ≠ q) (hp : l.users[p]? = some ea) (hq : l.users[q]? = some eb) :
    mirrored ea.2.m_transactions eb.2.m_transactions p q ∧
    (entries_with ea.2.m_transactions q).length =
      (entries_with eb.2.m_transactions p).length ∧
    (∀ (i : Nat) (ta tb : transaction),
      (entries_with ea.2.m_transactions q)[i]? = some ta →
      (entries_with eb.2.m_transactions p)[i]? = some tb →
      ta.comment = tb.comment ∧ ta.balance_delta_xts = -tb.balance_delta_xts ∧
      ta.balance_delta_xts ≠ 0) ∧
    (∀ (A B : Fin l.users.length) (amount : Int) (comment : String),
      A.val = p → B.val = q → (user.transfer l A B amount comment).1 = .ok () →
      ∃ ua ub : user,
        (user.transfer l A B amount comment).2.deref p = some ua ∧
        (user.transfer l A B amount comment).2.deref q = some ub ∧
        entries_with ua.m_transactions q =
          entries_with ea.2.m_transactions q ++ [⟨some q, -amount, comment⟩] ∧
        entries_with ub.m_transactions p =
          entries_with eb.2.m_transactions p ++ [⟨some p, amount, comment⟩] ∧
        -amount < 0 ∧ 0 < amount) := by
  have hm := mirrored_of_reachable h p q ea eb hpq hp hq
  refine ⟨hm, ?_, ?_, ?_⟩
  · have := congrArg List.length hm
    simpa only [List.length_map] using this
  · intro i ta tb hta htb
    have hi := congrArg (fun xs => xs[i]?) hm
    simp only [List.getElem?_map, hta, htb, Option.map_some', Option.some.injEq,
      Prod.mk.injEq] at hi
    refine ⟨hi.2, hi.1, ?_⟩
    have hmem : ta ∈ entries_with ea.2.m_transactions q :=
      List.mem_iff_getElem?.mpr ⟨i, hta⟩
    simp only [entries_with, List.mem_filter, decide_eq_true_eq] at hmem
    exact (counterparty_of_reachable h ea (List.mem_iff_getElem?.mpr ⟨p, hp⟩) ta
      hmem.1 q hmem.2).2
  · intro A B amount comment hA hB hok
    rcases transfer_cases l A B amount comment with ⟨err, herr⟩ | ⟨hAB, hpos, _, hok'⟩
    · rw [herr] at hok
      cases hok
    · obtain ⟨hdA, hdB⟩ := deref_after_add_funds l A B amount comment hAB
      subst hA
      subst hB
      have hea : (l.users[A]).2 = ea.2 := by
        rw [List.getElem?_eq_getElem A.isLt] at hp
        exact congrArg Prod.snd (Option.some.inj hp)
      have heb : (l.users[B]).2 = eb.2 := by
        rw [List.getElem?_eq_getElem B.isLt] at hq
        exact congrArg Prod.snd (Option.some.inj hq)
      rw [hok']
      refine ⟨_, _, hdA, hdB, ?_, ?_, by omega, hpos⟩
      · simp only [entries_with_append, hea]
        simp [entries_with]
      · simp only [entries_with_append, heb]
        simp [entries_with]

/-- Witness of C18: `alice` at `0` and `bob` at `1` after
`alice.transfer(bob, 30, "lunch")`. -/
theorem logs_mirror_witness :
    (reachable after_lunch ∧ (0 : Nat) ≠ 1 ∧
      after_lunch.users[0]? =
        some ("alice", ⟨"alice", 70, [seed_deposit "alice", ⟨some 1, -30, "lunch"⟩]⟩) ∧
      after_lunch.users[1]? = some ("bob", bob_after_lunch)) ∧
    mirrored [seed_deposit "alice", ⟨some 1, -30, "lunch"⟩] bob_after_lunch.m_transactions
      0 1 ∧
    (entries_with [seed_deposit "alice", ⟨some 1, -30, "lunch"⟩] 1).length =
      (entries_with bob_after_lunch.m_transactions 0).length :=
  ⟨⟨reachable_after_lunch, by decide, by decide, by decide⟩,
    (logs_mirror after_lunch reachable_after_lunch 0 1
      ("alice", ⟨"alice", 70, [seed_deposit "alice", ⟨some 1, -30, "lunch"⟩]⟩)
      ("bob", bob_after_lunch) (by decide) (by decide) (by decide)).1,
    (logs_mirror after_lunch reachable_after_lunch 0 1
      ("alice", ⟨"alice", 70, [seed_deposit "alice", ⟨some 1, -30, "lunch"⟩]⟩)
      ("bob", bob_after_lunch) (by decide) (by decide) (by decide)).2.1⟩

/-- C15 at the input `transactions -1` on a freshly created account (a snapshot
of one entry): `std::min(-1, 1)` is `-1`, the display loop starts at offset
`1 - (-1) = 2`, which is past the end of the snapshot, and the display has no
defined result. -/
theorem get_transactions_display_negative :
    display_count (-1) [seed_deposit "alice"].length = -1 ∧
    display_start (-1) [seed_deposit "alice"].length = 2 ∧
    ¬ (display_start (-1) [seed_deposit "alice"].length ≤ [seed_deposit "alice"].length) ∧
    get_transactions_display [seed_deposit "alice"] 100 (-1) = none := by
  decide

end bank
